import Mathlib

/-!
Verification of the `logic` decision-diagram core (`src/include/karnaugh.h`).

A shallow embedding of the BDD-like engine: the canonical node store
(`global_node_sink` with `emplace` / `bind`), the `literal` constructor,
the memoized `invert` operator, the generalized memoized `join` (apply)
operator with its AND/OR specializations `conjoin` / `disjoin`, and the
variadic left-fold overload of `join`.

The C++ code identifies nodes by `const node*` pointers; terminals `ZERO`
and `ONE` are fixed sentinel pointers, and stored nodes live at addresses
handed out by the interning sets.  The `node` record itself (fields
`depth`, negative child, positive child, value equality on all three
fields) is declared in `dag.h`, which is not part of the sources here; it
is modelled from the spec (§3 DATA MODEL).  We model pointers as an
inductive `NodeRef` (the two sentinels plus a numeric address), and the
mutable process state — the collection of stores, the process-wide bound
store, and the allocated node records — as an explicit `World` value
threaded through every operation.  Fresh addresses come from a global
counter, so nodes interned into different stores always receive distinct
references, exactly as distinct `std::set` elements have distinct
addresses.

Recursive operations (`invert`, `join`) are written with an explicit fuel
parameter and return `Option`; `none` models both a violated precondition
(no store bound, a dangling reference) and fuel exhaustion.  Fuel bounds
proved sufficient for well-formed inputs recover the totality of the C++
recursion (which terminates because every stored node's children were
allocated strictly earlier).
-/

namespace Karnaugh

/-- Modelled from the spec: a reference to a diagram node — either one of
the two terminal sentinels `ZERO` / `ONE` (fixed process-wide, never
members of a store, compared by identity), or the address of a stored
node.  This stands for `const node*` in the C++ code, where `dag.h`
(missing from the sources) declares the node type and the sentinels. -/
inductive NodeRef where
  | ZERO : NodeRef
  | ONE : NodeRef
  | addr : Nat → NodeRef
deriving DecidableEq, Repr

/-- Modelled from the spec: the immutable node record of `dag.h` — three
fields `depth`, `negative_child`, `positive_child`; two nodes are equal
iff all three fields are equal. -/
structure Node where
  depth : Nat
  negative : NodeRef
  positive : NodeRef
deriving DecidableEq, Repr

/-- One canonical node store (`std::set<node>`): an association from node
values to the addresses of their unique interned instances. -/
abbrev Store : Type := List (Node × Nat)

/-- Look up an address in an association list keyed by addresses
(the allocated node records). -/
def lookupA {β : Type} (k : Nat) : List (Nat × β) → Option β
  | [] => none
  | (a, b) :: t => if a = k then some b else lookupA k t

/-- Look up a node value in a store (`std::set<node>::emplace` finding an
equal element). -/
def lookupNode (n : Node) : Store → Option Nat
  | [] => none
  | (m, a) :: t => if m = n then some a else lookupNode n t

/-- The whole mutable state of the C++ process: the stores that exist
(indexed by position), the process-wide currently bound store
(`global_node_sink::s_factors`, `none` = null), the fresh-address
counter, and the allocated node records (address to record). -/
structure World where
  stores : List Store
  bound : Option Nat
  next : Nat
  heap : List (Nat × Node)
deriving Repr

/-- Dereference a node pointer: terminals carry no record. -/
def World.deref (w : World) : NodeRef → Option Node
  | .addr a => lookupA a w.heap
  | _ => none

/-- `global_node_sink::emplace(depth, left, right)`: if the two children
are the same reference, return that child (the reduction rule) without
touching the store; otherwise intern `{depth, left, right}` into the
currently bound store and return the canonical instance's reference.
`none` models the fatal access through a null / invalid bound store. -/
def emplace (w : World) (d : Nat) (l r : NodeRef) : Option (NodeRef × World) :=
  if l = r then some (l, w)
  else
    match w.bound with
    | none => none
    | some si =>
      match w.stores[si]? with
      | none => none
      | some st =>
        match lookupNode ⟨d, l, r⟩ st with
        | some a => some (.addr a, w)
        | none =>
          some (.addr w.next,
            { stores := w.stores.set si ((⟨d, l, r⟩, w.next) :: st),
              bound := w.bound,
              next := w.next + 1,
              heap := (w.next, ⟨d, l, r⟩) :: w.heap })

/-- `global_node_sink::bind(factors)`: replace the process-wide bound
store with the given one (or none) and return the previously bound
store. -/
def bind (w : World) (s : Option Nat) : Option Nat × World :=
  (w.bound, { w with bound := s })

/-- `logic::literal(index, sign)`: the canonical node testing one
variable — `emplace(index, sign ? ZERO : ONE, sign ? ONE : ZERO)`. -/
def literal (w : World) (i : Nat) (sign : Bool) : Option (NodeRef × World) :=
  emplace w i (if sign then .ZERO else .ONE) (if sign then .ONE else .ZERO)

/-- The memoization cache of `invert`
(`std::map<const node*, const node*>`). -/
abbrev ICache : Type := List (NodeRef × NodeRef)

/-- Look up a reference in an invert cache. -/
def lookupRef (k : NodeRef) : List (NodeRef × NodeRef) → Option NodeRef
  | [] => none
  | (a, b) :: t => if a = k then some b else lookupRef k t

/-- The cached overload of `logic::invert`: terminals swap; otherwise the
`CACHE` macro — on a hit return the cached value, on a miss recursively
invert both children, emplace the result at the same depth, and record it
under the source node.  Fuel is consumed only at recursive descent; the
C++ recursion terminates because children are allocated strictly before
their parents, which the fuel bounds proved below make explicit. -/
def invert (fuel : Nat) (w : World) (c : ICache) (r : NodeRef) :
    Option (NodeRef × ICache × World) :=
  match r with
  | .ZERO => some (.ONE, c, w)
  | .ONE => some (.ZERO, c, w)
  | .addr a =>
    match lookupRef (.addr a) c with
    | some v => some (v, c, w)
    | none =>
      match fuel with
      | 0 => none
      | fuel' + 1 =>
        match lookupA a w.heap with
        | none => none
        | some nd =>
          match invert fuel' w c nd.negative with
          | none => none
          | some (ln, c1, w1) =>
            match invert fuel' w1 c1 nd.positive with
            | none => none
            | some (lp, c2, w2) =>
              match emplace w2 nd.depth ln lp with
              | none => none
              | some (res, w3) => some (res, (.addr a, res) :: c2, w3)

/-- Recursion-depth bound used to instantiate fuel for the public
operator overloads: stored children have strictly smaller addresses, so
the address (plus one) bounds the recursion depth. -/
def rank : NodeRef → Nat
  | .addr a => a + 1
  | _ => 0

/-- The public `logic::invert(node)` overload: construct a fresh cache
and call the cached overload. -/
def invertTop (w : World) (r : NodeRef) : Option (NodeRef × World) :=
  match invert (rank r) w [] r with
  | none => none
  | some (res, _, w') => some (res, w')

/-- The memoization cache of `join`
(`std::map<std::set<const node*>, const node*>`), keyed by the unordered
operand pair. -/
abbrev JCache : Type := List ((NodeRef × NodeRef) × NodeRef)

/-- Numeric code of a reference, used only to order cache keys. -/
def refCode : NodeRef → Nat
  | .ZERO => 0
  | .ONE => 1
  | .addr a => a + 2

/-- The unordered pair `std::set<const node*>{x, y}` used as the join
cache key, represented as the pair sorted by reference code. -/
def pairKey (x y : NodeRef) : NodeRef × NodeRef :=
  if refCode x ≤ refCode y then (x, y) else (y, x)

/-- Look up a key in a join cache. -/
def lookupKey (k : NodeRef × NodeRef) : JCache → Option NodeRef
  | [] => none
  | (a, b) :: t => if a = k then some b else lookupKey k t

/-- The cached overload of `logic::join`: short-circuit on the identity
and annihilator operands; otherwise freeze the deeper operand (both of
its branch views are the operand itself) and split the other into its
children, then the `CACHE` macro — on a miss recursively join the
negative and positive branch views under the same cache, emplace at
`min(depth x, depth y)`, and record the result under the unordered
operand pair. -/
def join (fuel : Nat) (w : World) (c : JCache)
    (ident antident x y : NodeRef) : Option (NodeRef × JCache × World) :=
  if x = ident then some (y, c, w)
  else if y = ident then some (x, c, w)
  else if x = antident ∨ y = antident then some (antident, c, w)
  else
    match fuel with
    | 0 => none
    | fuel' + 1 =>
      match w.deref x, w.deref y with
      | some nx, some ny =>
        match lookupKey (pairKey x y) c with
        | some v => some (v, c, w)
        | none =>
          match join fuel' w c ident antident
              (if nx.depth > ny.depth then x else nx.negative)
              (if ny.depth > nx.depth then y else ny.negative) with
          | none => none
          | some (rl, c1, w1) =>
            match join fuel' w1 c1 ident antident
                (if nx.depth > ny.depth then x else nx.positive)
                (if ny.depth > nx.depth then y else ny.positive) with
            | none => none
            | some (rr, c2, w2) =>
              match emplace w2 (min nx.depth ny.depth) rl rr with
              | none => none
              | some (res, w3) =>
                some (res, (pairKey x y, res) :: c2, w3)
      | _, _ => none

/-- One pairwise step of the variadic `join` overload: construct a fresh
cache and call the cached overload, with fuel sufficient for the
recursion depth of well-formed operands. -/
def pairJoin (w : World) (ident antident x y : NodeRef) :
    Option (NodeRef × JCache × World) :=
  join (rank x + rank y + 1) w [] ident antident x y

/-- The variadic `logic::join` overload: combine the first two operands
with a fresh cache, then recursively fold the junction with the
remaining operands — each recursive variadic call constructs its own
fresh cache. -/
def joinN (w : World) (ident antident x y : NodeRef) (rest : List NodeRef) :
    Option (NodeRef × World) :=
  match pairJoin w ident antident x y with
  | none => none
  | some (j, _, w') =>
    match rest with
    | [] => some (j, w')
    | z :: rest' => joinN w' ident antident j z rest'

/-- `logic::disjoin`: `join(ZERO, ONE, ...)`. -/
def disjoin (w : World) (x y : NodeRef) (rest : List NodeRef) :
    Option (NodeRef × World) :=
  joinN w .ZERO .ONE x y rest

/-- `logic::conjoin`: `join(ONE, ZERO, ...)`. -/
def conjoin (w : World) (x y : NodeRef) (rest : List NodeRef) :
    Option (NodeRef × World) :=
  joinN w .ONE .ZERO x y rest

/-! ## Denotational semantics

A diagram denotes a boolean function of an assignment `σ : Nat → Bool`
of the variables: a node tests variable `depth` and selects the positive
child when it is true.  `denF` is the fuel-indexed evaluator; `den`
instantiates the fuel with the address-based recursion bound, which the
well-formedness predicate below proves sufficient. -/

/-- Fuel-indexed evaluation of a diagram under an assignment. -/
def denF (fuel : Nat) (w : World) (r : NodeRef) (σ : Nat → Bool) :
    Option Bool :=
  match r with
  | .ZERO => some false
  | .ONE => some true
  | .addr a =>
    match fuel with
    | 0 => none
    | fuel' + 1 =>
      match lookupA a w.heap with
      | none => none
      | some nd => denF fuel' w (if σ nd.depth then nd.positive else nd.negative) σ

/-- The boolean function denoted by a diagram. -/
def den (w : World) (r : NodeRef) (σ : Nat → Bool) : Option Bool :=
  denF (rank r) w r σ

/-! ## Well-formedness and session invariants -/

/-- A child reference was allocated strictly before its parent
(terminals are unconstrained).  This is the allocation-order fact that
makes the C++ recursions terminate. -/
def childLt (a : Nat) : NodeRef → Prop
  | .addr b => b < a
  | _ => True

/-- The top decision variable of `r` lies strictly below (greater
than) `d` in the variable order. -/
def topGt (w : World) (d : Nat) : NodeRef → Prop
  | .addr b => ∃ nd, lookupA b w.heap = some nd ∧ d < nd.depth
  | _ => True

/-- The top decision variable of `r` is at least `d`. -/
def topGe (w : World) (d : Nat) : NodeRef → Prop
  | .addr b => ∃ nd, lookupA b w.heap = some nd ∧ d ≤ nd.depth
  | _ => True

/-- A diagram constructed in the session whose store is `st`: every node
is allocated, interned in `st` as the canonical instance of its own
value, reduced (distinct children), ordered (children test strictly
later variables), with children allocated earlier and themselves
well-formed.  Terminals are always well-formed. -/
inductive Wf (w : World) (st : Store) : NodeRef → Prop
  | zero : Wf w st .ZERO
  | one : Wf w st .ONE
  | node (a : Nat) (nd : Node)
      (hheap : lookupA a w.heap = some nd)
      (hstore : lookupNode nd st = some a)
      (hred : nd.negative ≠ nd.positive)
      (hltn : childLt a nd.negative) (hltp : childLt a nd.positive)
      (hgtn : topGt w nd.depth nd.negative) (hgtp : topGt w nd.depth nd.positive)
      (hwfn : Wf w st nd.negative) (hwfp : Wf w st nd.positive) :
      Wf w st (.addr a)

/-- The invariant of a construction session: store `si` is bound and
holds `st`, every allocated address is below the fresh counter, and
every store entry is the well-formed canonical instance of its value. -/
structure SessionInv (w : World) (si : Nat) (st : Store) : Prop where
  bound : w.bound = some si
  get : w.stores[si]? = some st
  nextB : ∀ a nd, lookupA a w.heap = some nd → a < w.next
  swf : ∀ nd a, lookupNode nd st = some a →
    lookupA a w.heap = some nd ∧ Wf w st (.addr a)

/-- How one construction step may change the world: the bound store is
unchanged, the fresh counter only grows, allocated records persist,
store `si` only gains entries (old lookups persist), and every other
store is untouched. -/
structure ExtendsAt (si : Nat) (w w' : World) : Prop where
  bound : w'.bound = w.bound
  next : w.next ≤ w'.next
  heap : ∀ a nd, lookupA a w.heap = some nd → lookupA a w'.heap = some nd
  store : ∀ st, w.stores[si]? = some st →
    ∃ st', w'.stores[si]? = some st' ∧
      ∀ nd a, lookupNode nd st = some a → lookupNode nd st' = some a
  frame : ∀ sj, sj ≠ si → w'.stores[sj]? = w.stores[sj]?

/-! ## Auxiliary definitions: cache correctness, operator selection,
world-level invariant predicates, instrumented and spec-modelled folds,
and the concrete sessions the witnesses evaluate -/

/-- The world after creating one empty store and binding it. -/
def W0 : World := ⟨[[]], some 0, 0, []⟩

/-- Correctness of an invert cache: every entry maps a well-formed
session node to its well-formed complement, preserving every lower bound
on the top variable. -/
def ICacheOk (w : World) (st : Store) (c : ICache) : Prop :=
  ∀ k v, lookupRef k c = some v →
    Wf w st k ∧ Wf w st v ∧
    (∀ d, topGt w d k → topGt w d v) ∧
    (∀ σ b, den w k σ = some b → den w v σ = some (!b))

/-- The boolean operator realized by an (identity, annihilator)
parameterization: `(ZERO, ONE)` instantiates disjunction and
`(ONE, ZERO)` conjunction, exactly the two instantiations `disjoin` and
`conjoin` use. -/
def OpPair (ident antident : NodeRef) (op : Bool → Bool → Bool) : Prop :=
  (ident = .ZERO ∧ antident = .ONE ∧ op = or) ∨
  (ident = .ONE ∧ antident = .ZERO ∧ op = and)

/-- Correctness of a join cache for a fixed operator: every entry maps a
pair of well-formed session nodes to their well-formed combination,
preserving every common lower bound on the top variable. -/
def JCacheOk (w : World) (st : Store) (op : Bool → Bool → Bool)
    (c : JCache) : Prop :=
  ∀ u v z, lookupKey (u, v) c = some z →
    Wf w st u ∧ Wf w st v ∧ Wf w st z ∧
    (∀ d, topGt w d u → topGt w d v → topGt w d z) ∧
    (∀ σ bu bv, den w u σ = some bu → den w v σ = some bv →
      den w z σ = some (op bu bv))

/-- The part of the session invariant that holds whatever children are
passed to `emplace`: a valid binding, bounded addresses, and
store-to-record consistency. -/
structure StoreInv (w : World) (si : Nat) (st : Store) : Prop where
  bound : w.bound = some si
  get : w.stores[si]? = some st
  nextB : ∀ a nd, lookupA a w.heap = some nd → a < w.next
  shc : ∀ nd a, lookupNode nd st = some a → lookupA a w.heap = some nd

/-- No node held by any existing store has equal children. -/
def StoresReduced (w : World) : Prop :=
  ∀ st ∈ w.stores, ∀ p ∈ st, (p : Node × Nat).1.negative ≠ p.1.positive

/-- The variadic overload with the final pairwise step's cache exposed:
in C++ the cache is the last recursive frame's local `l_cache`; apart
from returning it, this is exactly `joinN`. -/
def joinNC (w : World) (ident antident x y : NodeRef) :
    List NodeRef → Option (NodeRef × JCache × World)
  | [] => pairJoin w ident antident x y
  | z :: rest =>
    match pairJoin w ident antident x y with
    | none => none
    | some (j, _, w') => joinNC w' ident antident j z rest

/-- Modelled from the spec: §4.5(6)'s wording of the variadic fold —
one cache is created for the whole top-level call and every pairwise
step shares it (each step receives the cache the previous step
returned). -/
def joinNShared (w : World) (c : JCache) (ident antident x y : NodeRef) :
    List NodeRef → Option (NodeRef × JCache × World)
  | [] => join (rank x + rank y + 1) w c ident antident x y
  | z :: rest =>
    match join (rank x + rank y + 1) w c ident antident x y with
    | none => none
    | some (j, c', w') => joinNShared w' c' ident antident j z rest

/-- A left fold of the public pairwise overload over the remaining
operands, each step with its own fresh cache. -/
def foldPairs (w : World) (ident antident acc : NodeRef) :
    List NodeRef → Option (NodeRef × World)
  | [] => some (acc, w)
  | z :: rest =>
    match pairJoin w ident antident acc z with
    | none => none
    | some (j, _, w') => foldPairs w' ident antident j rest

/-- The store holding the literals of variables 0, 1 and 2 (positive
sign), in insertion order. -/
def stAbc : Store :=
  [(⟨2, .ZERO, .ONE⟩, 2), (⟨1, .ZERO, .ONE⟩, 1), (⟨0, .ZERO, .ONE⟩, 0)]

/-- The world after binding one fresh store and constructing
`literal 0 true`, `literal 1 true` and `literal 2 true`. -/
def Wabc : World :=
  ⟨[stAbc], some 0, 3,
   [(2, ⟨2, .ZERO, .ONE⟩), (1, ⟨1, .ZERO, .ONE⟩), (0, ⟨0, .ZERO, .ONE⟩)]⟩

theorem ExtendsAt.refl (si : Nat) (w : World) : ExtendsAt si w w :=
  ⟨rfl, le_refl _, fun _ _ h => h, fun st h => ⟨st, h, fun _ _ h => h⟩,
    fun _ _ => rfl⟩

theorem ExtendsAt.trans {si : Nat} {w₁ w₂ w₃ : World}
    (h₁ : ExtendsAt si w₁ w₂) (h₂ : ExtendsAt si w₂ w₃) :
    ExtendsAt si w₁ w₃ := by
  refine ⟨h₂.bound.trans h₁.bound, le_trans h₁.next h₂.next,
    fun a nd h => h₂.heap a nd (h₁.heap a nd h), fun st h => ?_,
    fun sj hj => (h₂.frame sj hj).trans (h₁.frame sj hj)⟩
  obtain ⟨st', hst', hgrow⟩ := h₁.store st h
  obtain ⟨st'', hst'', hgrow'⟩ := h₂.store st' hst'
  exact ⟨st'', hst'', fun nd a ha => hgrow' nd a (hgrow nd a ha)⟩

/-! ## Monotonicity and denotation lemmas -/

theorem topGt_mono {w w' : World} {d : Nat} {r : NodeRef}
    (hh : ∀ a nd, lookupA a w.heap = some nd → lookupA a w'.heap = some nd)
    (h : topGt w d r) : topGt w' d r := by
  cases r with
  | addr b =>
    obtain ⟨nd, hnd, hd⟩ := h
    exact ⟨nd, hh b nd hnd, hd⟩
  | ZERO => trivial
  | ONE => trivial

theorem Wf_mono {w w' : World} {st st' : Store} {r : NodeRef}
    (hh : ∀ a nd, lookupA a w.heap = some nd → lookupA a w'.heap = some nd)
    (hs : ∀ nd a, lookupNode nd st = some a → lookupNode nd st' = some a)
    (h : Wf w st r) : Wf w' st' r := by
  induction h with
  | zero => exact .zero
  | one => exact .one
  | node a nd hheap hstore hred hltn hltp hgtn hgtp _ _ ihn ihp =>
    exact .node a nd (hh a nd hheap) (hs nd a hstore) hred hltn hltp
      (topGt_mono hh hgtn) (topGt_mono hh hgtp) ihn ihp

theorem denF_mono_world {w w' : World} {σ : Nat → Bool} {b : Bool}
    (hh : ∀ a nd, lookupA a w.heap = some nd → lookupA a w'.heap = some nd) :
    ∀ (f : Nat) (r : NodeRef), denF f w r σ = some b → denF f w' r σ = some b := by
  intro f
  induction f with
  | zero =>
    intro r h
    cases r <;> simp [denF] at h ⊢ <;> exact h
  | succ f ih =>
    intro r h
    cases r with
    | ZERO => simpa [denF] using h
    | ONE => simpa [denF] using h
    | addr a =>
      simp only [denF] at h ⊢
      cases hl : lookupA a w.heap with
      | none => rw [hl] at h; exact absurd h (by simp)
      | some nd => rw [hl] at h; rw [hh a nd hl]; exact ih _ h

theorem den_mono_world {w w' : World} {r : NodeRef} {σ : Nat → Bool} {b : Bool}
    (hh : ∀ a nd, lookupA a w.heap = some nd → lookupA a w'.heap = some nd)
    (h : den w r σ = some b) : den w' r σ = some b :=
  denF_mono_world hh (rank r) r h

theorem rank_le_of_childLt {a : Nat} {r : NodeRef} (h : childLt a r) :
    rank r ≤ a := by
  cases r with
  | addr b => simp only [childLt] at h; simp only [rank]; omega
  | ZERO => exact Nat.zero_le a
  | ONE => exact Nat.zero_le a

/-- Any fuel at least the address bound evaluates a well-formed diagram
to its denotation. -/
theorem denF_eq_den {w : World} {st : Store} {σ : Nat → Bool} {r : NodeRef}
    (h : Wf w st r) : ∀ f, rank r ≤ f → denF f w r σ = den w r σ := by
  induction h with
  | zero => intro f _; cases f <;> rfl
  | one => intro f _; cases f <;> rfl
  | node a nd hheap _ _ hltn hltp _ _ _ _ ihn ihp =>
    intro f hf
    obtain ⟨f', rfl⟩ : ∃ f', f = f' + 1 := ⟨f - 1, by simp only [rank] at hf; omega⟩
    have ha : a ≤ f' := by simp only [rank] at hf; omega
    show denF (f' + 1) w (.addr a) σ = denF (rank (.addr a)) w (.addr a) σ
    simp only [denF, rank, hheap]
    by_cases hσ : σ nd.depth
    · simp only [hσ, if_true]
      rw [ihp f' (le_trans (rank_le_of_childLt hltp) ha),
        ihp a (rank_le_of_childLt hltp)]
    · simp only [hσ, Bool.false_eq_true, if_false]
      rw [ihn f' (le_trans (rank_le_of_childLt hltn) ha),
        ihn a (rank_le_of_childLt hltn)]

/-- Well-formed diagrams evaluate successfully under every assignment. -/
theorem den_total {w : World} {st : Store} {r : NodeRef} (h : Wf w st r)
    (σ : Nat → Bool) : ∃ b, den w r σ = some b := by
  induction h with
  | zero => exact ⟨false, rfl⟩
  | one => exact ⟨true, rfl⟩
  | node a nd hheap _ _ hltn hltp _ _ hwfn hwfp ihn ihp =>
    show ∃ b, denF (a + 1) w (.addr a) σ = some b
    simp only [denF, hheap]
    by_cases hσ : σ nd.depth
    · simp only [hσ, if_true]
      obtain ⟨b, hb⟩ := ihp
      exact ⟨b, by rw [denF_eq_den hwfp a (rank_le_of_childLt hltp)]; exact hb⟩
    · simp only [hσ, Bool.false_eq_true, if_false]
      obtain ⟨b, hb⟩ := ihn
      exact ⟨b, by rw [denF_eq_den hwfn a (rank_le_of_childLt hltn)]; exact hb⟩

/-- Shannon-style unfolding: a node evaluates as the child selected by
its decision variable. -/
theorem den_step {w : World} {st : Store} {a : Nat} {nd : Node}
    {σ : Nat → Bool} (hheap : lookupA a w.heap = some nd)
    (hltn : childLt a nd.negative) (hltp : childLt a nd.positive)
    (hwfn : Wf w st nd.negative) (hwfp : Wf w st nd.positive) :
    den w (.addr a) σ = den w (if σ nd.depth then nd.positive else nd.negative) σ := by
  show denF (a + 1) w (.addr a) σ = _
  simp only [denF, hheap]
  by_cases hσ : σ nd.depth
  · simp only [hσ, if_true]
    exact denF_eq_den hwfp a (rank_le_of_childLt hltp)
  · simp only [hσ, Bool.false_eq_true, if_false]
    exact denF_eq_den hwfn a (rank_le_of_childLt hltn)

theorem topGe_of_topGt {w : World} {d : Nat} {r : NodeRef} (h : topGt w d r) :
    topGe w (d + 1) r := by
  cases r with
  | addr b =>
    obtain ⟨nd, hnd, hd⟩ := h
    exact ⟨nd, hnd, hd⟩
  | ZERO => trivial
  | ONE => trivial

/-- The denotation of a diagram whose variables all lie at or below `d`
does not depend on the variables above `d`. -/
theorem den_indep {w : World} {st : Store} {r : NodeRef} {σ σ' : Nat → Bool}
    (h : Wf w st r) :
    ∀ d, topGe w d r → (∀ i, d ≤ i → σ i = σ' i) → den w r σ = den w r σ' := by
  induction h with
  | zero => intro d _ _; rfl
  | one => intro d _ _; rfl
  | node a nd hheap _ _ hltn hltp hgtn hgtp hwfn hwfp ihn ihp =>
    intro d hge hagree
    obtain ⟨nd', hnd', hdle⟩ := hge
    rw [hheap] at hnd'
    obtain rfl : nd = nd' := Option.some.inj hnd'
    have hσd : σ nd.depth = σ' nd.depth := hagree nd.depth hdle
    rw [den_step hheap hltn hltp hwfn hwfp,
      den_step hheap hltn hltp hwfn hwfp, hσd]
    by_cases hs : σ' nd.depth
    · simp only [hs, if_true]
      exact ihp (nd.depth + 1) (topGe_of_topGt hgtp)
        (fun i hi => hagree i (by omega))
    · simp only [hs, Bool.false_eq_true, if_false]
      exact ihn (nd.depth + 1) (topGe_of_topGt hgtn)
        (fun i hi => hagree i (by omega))

/-! ## The store: `emplace` -/

/-- The reduction short-circuit: equal children are returned unchanged,
with no store access whatsoever. -/
theorem emplace_same (w : World) (d : Nat) (c : NodeRef) :
    emplace w d c c = some (c, w) := by
  simp [emplace]

theorem wf_childLt {w : World} {st : Store} {r : NodeRef}
    (hnext : ∀ a nd, lookupA a w.heap = some nd → a < w.next)
    (h : Wf w st r) : childLt w.next r := by
  cases h with
  | zero => trivial
  | one => trivial
  | node a nd hheap => exact hnext a nd hheap

/-- Interning a reduced prospective node: the canonical (pre-existing or
fresh) instance is returned, the session invariant and all existing
diagrams survive, and the result is a well-formed node with exactly the
requested fields. -/
theorem emplace_ok {w : World} {si : Nat} {st : Store} {d : Nat}
    {l r : NodeRef} (hinv : SessionInv w si st) (hne : l ≠ r)
    (hwl : Wf w st l) (hwr : Wf w st r)
    (hgl : topGt w d l) (hgr : topGt w d r) :
    ∃ a w' st', emplace w d l r = some (.addr a, w') ∧
      SessionInv w' si st' ∧ ExtendsAt si w w' ∧
      lookupA a w'.heap = some ⟨d, l, r⟩ ∧
      lookupNode ⟨d, l, r⟩ st' = some a ∧
      Wf w' st' (.addr a) := by
  rw [emplace, if_neg hne, hinv.bound]
  simp only [hinv.get]
  cases hfind : lookupNode ⟨d, l, r⟩ st with
  | some a =>
    obtain ⟨hheap, hwf⟩ := hinv.swf _ _ hfind
    exact ⟨a, w, st, rfl, hinv, ExtendsAt.refl si w, hheap, hfind, hwf⟩
  | none =>
    set nd : Node := ⟨d, l, r⟩ with hnd
    set w' : World :=
      { stores := w.stores.set si ((nd, w.next) :: st),
        bound := some si,
        next := w.next + 1,
        heap := (w.next, nd) :: w.heap } with hw'
    have hh : ∀ a nd0, lookupA a w.heap = some nd0 → lookupA a w'.heap = some nd0 := by
      intro a nd0 h
      have hlt : a < w.next := hinv.nextB a nd0 h
      show lookupA a ((w.next, nd) :: w.heap) = some nd0
      simp only [lookupA]
      rw [if_neg (by omega)]
      exact h
    have hs : ∀ m a, lookupNode m st = some a →
        lookupNode m ((nd, w.next) :: st) = some a := by
      intro m a h
      simp only [lookupNode]
      rw [if_neg (fun he => by rw [he] at hfind; rw [hfind] at h; exact Option.noConfusion h)]
      exact h
    have hlen : si < w.stores.length := (List.getElem?_eq_some_iff.mp hinv.get).1
    have hget' : w'.stores[si]? = some ((nd, w.next) :: st) := by
      show (w.stores.set si ((nd, w.next) :: st))[si]? = _
      rw [List.getElem?_set_self (by simpa using hlen)]
    have hheapnew : lookupA w.next w'.heap = some nd := by
      show lookupA w.next ((w.next, nd) :: w.heap) = some nd
      simp [lookupA]
    have hstorenew : lookupNode nd ((nd, w.next) :: st) = some w.next := by
      simp [lookupNode]
    have hext : ExtendsAt si w w' := by
      refine ⟨hinv.bound.symm, Nat.le_succ _, hh, fun st0 h0 => ?_, fun sj hj => ?_⟩
      · rw [hinv.get] at h0
        obtain rfl : st = st0 := Option.some.inj h0
        exact ⟨(nd, w.next) :: st, hget', hs⟩
      · show (w.stores.set si ((nd, w.next) :: st))[sj]? = w.stores[sj]?
        exact List.getElem?_set_ne (fun h => hj h.symm)
    have hnextB' : ∀ a nd0, lookupA a w'.heap = some nd0 → a < w'.next := by
      intro a nd0 h
      show a < w.next + 1
      by_cases ha : w.next = a
      · omega
      · have : lookupA a w.heap = some nd0 := by
          revert h
          show lookupA a ((w.next, nd) :: w.heap) = some nd0 → _
          simp only [lookupA]
          rw [if_neg ha]
          exact id
        have := hinv.nextB a nd0 this
        omega
    have hwfnew : Wf w' ((nd, w.next) :: st) (.addr w.next) := by
      refine .node w.next nd hheapnew hstorenew hne ?_ ?_ ?_ ?_ ?_ ?_
      · exact wf_childLt hinv.nextB hwl
      · exact wf_childLt hinv.nextB hwr
      · exact topGt_mono hh hgl
      · exact topGt_mono hh hgr
      · exact Wf_mono hh hs hwl
      · exact Wf_mono hh hs hwr
    refine ⟨w.next, w', (nd, w.next) :: st, rfl, ?_, hext, hheapnew, hstorenew, hwfnew⟩
    refine ⟨rfl, hget', hnextB', ?_⟩
    intro m a hm
    by_cases hmn : m = nd
    · subst hmn
      rw [hstorenew] at hm
      obtain rfl : w.next = a := Option.some.inj hm
      exact ⟨hheapnew, hwfnew⟩
    · have hm' : lookupNode m st = some a := by
        revert hm
        simp only [lookupNode]
        rw [if_neg (fun he => hmn he.symm)]
        exact id
      obtain ⟨hheap0, hwf0⟩ := hinv.swf m a hm'
      exact ⟨hh a m hheap0, Wf_mono hh hs hwf0⟩

/-! ## The literal constructor -/

/-- `literal(i, sign)` returns the canonical well-formed node with depth
`i`, negative child `ONE`/`ZERO` and positive child `ZERO`/`ONE`
according to the sign, denoting the function `σ i == sign`. -/
theorem literal_ok {w : World} {si : Nat} {st : Store}
    (hinv : SessionInv w si st) (i : Nat) (sign : Bool) :
    ∃ a w' st', literal w i sign = some (.addr a, w') ∧
      SessionInv w' si st' ∧ ExtendsAt si w w' ∧
      lookupA a w'.heap =
        some ⟨i, if sign then .ZERO else .ONE, if sign then .ONE else .ZERO⟩ ∧
      lookupNode ⟨i, if sign then .ZERO else .ONE, if sign then .ONE else .ZERO⟩ st' =
        some a ∧
      Wf w' st' (.addr a) ∧
      (∀ σ, den w' (.addr a) σ = some (σ i == sign)) := by
  have hne : (if sign then NodeRef.ZERO else NodeRef.ONE) ≠
      (if sign then NodeRef.ONE else NodeRef.ZERO) := by
    cases sign <;> simp
  have hwl : Wf w st (if sign then NodeRef.ZERO else NodeRef.ONE) := by
    cases sign
    · exact .one
    · exact .zero
  have hwr : Wf w st (if sign then NodeRef.ONE else NodeRef.ZERO) := by
    cases sign
    · exact .zero
    · exact .one
  have hgl : topGt w i (if sign then NodeRef.ZERO else NodeRef.ONE) := by
    cases sign <;> trivial
  have hgr : topGt w i (if sign then NodeRef.ONE else NodeRef.ZERO) := by
    cases sign <;> trivial
  obtain ⟨a, w', st', heq, hinv', hext, hheap, hstore, hwf⟩ :=
    emplace_ok hinv hne hwl hwr hgl hgr
  refine ⟨a, w', st', heq, hinv', hext, hheap, hstore, hwf, fun σ => ?_⟩
  cases hwf with
  | node a nd hheap' hstore' hred hltn hltp hgtn hgtp hwfn hwfp =>
    rw [hheap] at hheap'
    obtain rfl := Option.some.inj hheap'
    rw [den_step hheap hltn hltp hwfn hwfp]
    cases hσ : σ i <;> cases sign <;> rfl

/-! ## A fresh session -/


theorem sessionInv_W0 : SessionInv W0 0 [] := by
  refine ⟨rfl, rfl, fun a nd h => ?_, fun nd a h => ?_⟩
  · simp [lookupA, W0] at h
  · simp [lookupNode] at h

/-! ## Further transport lemmas -/

theorem topGt_of_le {w : World} {d d' : Nat} {r : NodeRef} (hle : d ≤ d')
    (h : topGt w d' r) : topGt w d r := by
  cases r with
  | addr b =>
    obtain ⟨nd, h1, h2⟩ := h
    exact ⟨nd, h1, by omega⟩
  | ZERO => trivial
  | ONE => trivial

/-- Extract the depth bound of a non-terminal from `topGt`. -/
theorem topGt_elim {w : World} {d : Nat} {a : Nat} {nd : Node}
    (hheap : lookupA a w.heap = some nd) (h : topGt w d (.addr a)) :
    d < nd.depth := by
  obtain ⟨nd', hnd', hd⟩ := h
  rw [hheap] at hnd'
  obtain rfl := Option.some.inj hnd'
  exact hd

theorem topGt_reflect {w w' : World} {st : Store} {d : Nat} {r : NodeRef}
    (hh : ∀ a nd, lookupA a w.heap = some nd → lookupA a w'.heap = some nd)
    (hwf : Wf w st r) (h : topGt w' d r) : topGt w d r := by
  cases hwf with
  | zero => trivial
  | one => trivial
  | node a nd hheap =>
    exact ⟨nd, hheap, topGt_elim (hh a nd hheap) h⟩

theorem den_reflect {w w' : World} {st : Store} {r : NodeRef} {σ : Nat → Bool}
    {b : Bool}
    (hh : ∀ a nd, lookupA a w.heap = some nd → lookupA a w'.heap = some nd)
    (hwf : Wf w st r) (h : den w' r σ = some b) : den w r σ = some b := by
  obtain ⟨b0, hb0⟩ := den_total hwf σ
  have hb0' := den_mono_world hh hb0
  rw [h] at hb0'
  obtain rfl := Option.some.inj hb0'
  exact hb0

theorem ExtendsAt.storeGrow {si : Nat} {w w' : World} (hext : ExtendsAt si w w')
    {st st' : Store} (hst : w.stores[si]? = some st)
    (hst' : w'.stores[si]? = some st') :
    ∀ nd a, lookupNode nd st = some a → lookupNode nd st' = some a := by
  obtain ⟨st'', hst'', hgrow⟩ := hext.store st hst
  rw [hst'] at hst''
  obtain rfl := Option.some.inj hst''
  exact hgrow

theorem ExtendsAt.wf {si : Nat} {w w' : World} (hext : ExtendsAt si w w')
    {st st' : Store} (hst : w.stores[si]? = some st)
    (hst' : w'.stores[si]? = some st') {r : NodeRef} (h : Wf w st r) :
    Wf w' st' r :=
  Wf_mono hext.heap (hext.storeGrow hst hst') h

/-- Shannon unfolding packaged with node well-formedness. -/
theorem den_step_wf {w : World} {st : Store} {a : Nat} {nd : Node}
    {σ : Nat → Bool} (hwf : Wf w st (.addr a))
    (hheap : lookupA a w.heap = some nd) :
    den w (.addr a) σ = den w (if σ nd.depth then nd.positive else nd.negative) σ := by
  cases hwf with
  | node a nd' hheap' hstore hred hltn hltp hgtn hgtp hwfn hwfp =>
    rw [hheap'] at hheap
    obtain rfl := Option.some.inj hheap
    exact den_step hheap' hltn hltp hwfn hwfp

/-! ## The invert operator -/


theorem ICacheOk_mono {w w' : World} {st st' : Store} {c : ICache}
    (hh : ∀ a nd, lookupA a w.heap = some nd → lookupA a w'.heap = some nd)
    (hs : ∀ nd a, lookupNode nd st = some a → lookupNode nd st' = some a)
    (hc : ICacheOk w st c) : ICacheOk w' st' c := by
  intro k v h
  obtain ⟨hk, hv, htop, hden⟩ := hc k v h
  refine ⟨Wf_mono hh hs hk, Wf_mono hh hs hv, ?_, ?_⟩
  · intro d hd
    exact topGt_mono hh (htop d (topGt_reflect hh hk hd))
  · intro σ b hb
    exact den_mono_world hh (hden σ b (den_reflect hh hk hb))

/-- Partial correctness of the cached `invert`: a successful run
preserves the session invariant, extends the world, keeps the cache
correct, and returns a well-formed diagram denoting the pointwise
complement, without raising the top variable. -/
theorem invert_ok : ∀ (fuel : Nat) {w w' : World} {si : Nat} {st : Store}
    {c c' : ICache} {r res : NodeRef},
    invert fuel w c r = some (res, c', w') →
    SessionInv w si st → Wf w st r → ICacheOk w st c →
    ∃ st', SessionInv w' si st' ∧ ExtendsAt si w w' ∧
      ICacheOk w' st' c' ∧ Wf w' st' res ∧
      (∀ d, topGt w d r → topGt w' d res) ∧
      (∀ σ b, den w r σ = some b → den w' res σ = some (!b)) := by
  intro fuel
  induction fuel with
  | zero =>
    intro w w' si st c c' r res heq hinv hwf hc
    cases r with
    | ZERO =>
      simp only [invert, Option.some.injEq, Prod.mk.injEq] at heq
      obtain ⟨rfl, rfl, rfl⟩ := heq
      refine ⟨st, hinv, ExtendsAt.refl si w, hc, .one, fun d _ => trivial, ?_⟩
      intro σ b hb
      obtain rfl : false = b := Option.some.inj hb
      rfl
    | ONE =>
      simp only [invert, Option.some.injEq, Prod.mk.injEq] at heq
      obtain ⟨rfl, rfl, rfl⟩ := heq
      refine ⟨st, hinv, ExtendsAt.refl si w, hc, .zero, fun d _ => trivial, ?_⟩
      intro σ b hb
      obtain rfl : true = b := Option.some.inj hb
      rfl
    | addr a =>
      rw [invert] at heq
      cases hhit : lookupRef (.addr a) c with
      | some v =>
        simp only [hhit, Option.some.injEq, Prod.mk.injEq] at heq
        obtain ⟨rfl, rfl, rfl⟩ := heq
        obtain ⟨hk, hv, htop, hden⟩ := hc _ _ hhit
        exact ⟨st, hinv, ExtendsAt.refl si w, hc, hv, htop, hden⟩
      | none =>
        rw [hhit] at heq
        exact absurd heq (by simp)
  | succ fuel ih =>
    intro w w' si st c c' r res heq hinv hwf hc
    cases r with
    | ZERO =>
      simp only [invert, Option.some.injEq, Prod.mk.injEq] at heq
      obtain ⟨rfl, rfl, rfl⟩ := heq
      refine ⟨st, hinv, ExtendsAt.refl si w, hc, .one, fun d _ => trivial, ?_⟩
      intro σ b hb
      obtain rfl : false = b := Option.some.inj hb
      rfl
    | ONE =>
      simp only [invert, Option.some.injEq, Prod.mk.injEq] at heq
      obtain ⟨rfl, rfl, rfl⟩ := heq
      refine ⟨st, hinv, ExtendsAt.refl si w, hc, .zero, fun d _ => trivial, ?_⟩
      intro σ b hb
      obtain rfl : true = b := Option.some.inj hb
      rfl
    | addr a =>
      rw [invert] at heq
      cases hhit : lookupRef (.addr a) c with
      | some v =>
        simp only [hhit, Option.some.injEq, Prod.mk.injEq] at heq
        obtain ⟨rfl, rfl, rfl⟩ := heq
        obtain ⟨hk, hv, htop, hden⟩ := hc _ _ hhit
        exact ⟨st, hinv, ExtendsAt.refl si w, hc, hv, htop, hden⟩
      | none =>
        simp only [hhit] at heq
        -- extract the node record facts from well-formedness
        obtain ⟨nd, hheap, hstore, hred, hltn, hltp, hgtn, hgtp, hwfn, hwfp⟩ :
            ∃ nd, lookupA a w.heap = some nd ∧ lookupNode nd st = some a ∧
              nd.negative ≠ nd.positive ∧ childLt a nd.negative ∧
              childLt a nd.positive ∧ topGt w nd.depth nd.negative ∧
              topGt w nd.depth nd.positive ∧ Wf w st nd.negative ∧
              Wf w st nd.positive := by
          cases hwf with
          | node a nd h1 h2 h3 h4 h5 h6 h7 h8 h9 =>
            exact ⟨nd, h1, h2, h3, h4, h5, h6, h7, h8, h9⟩
        simp only [hheap] at heq
        cases h1 : invert fuel w c nd.negative with
        | none => simp only [h1] at heq; exact Option.noConfusion heq
        | some t1 =>
          obtain ⟨ln, c1, w1⟩ := t1
          simp only [h1] at heq
          cases h2 : invert fuel w1 c1 nd.positive with
          | none => simp only [h2] at heq; exact Option.noConfusion heq
          | some t2 =>
            obtain ⟨lp, c2, w2⟩ := t2
            simp only [h2] at heq
            obtain ⟨st1, hinv1, hext1, hc1, hwfln, htop1, hden1⟩ :=
              ih h1 hinv hwfn hc
            have hwfp1 : Wf w1 st1 nd.positive :=
              hext1.wf hinv.get hinv1.get hwfp
            obtain ⟨st2, hinv2, hext2, hc2, hwflp, htop2, hden2⟩ :=
              ih h2 hinv1 hwfp1 hc1
            have hwfln2 : Wf w2 st2 ln := hext2.wf hinv1.get hinv2.get hwfln
            have hgtln2 : topGt w2 nd.depth ln :=
              topGt_mono hext2.heap (htop1 nd.depth hgtn)
            have hgtlp2 : topGt w2 nd.depth lp :=
              htop2 nd.depth (topGt_mono hext1.heap hgtp)
            -- the complement denotation of the result of emplace
            have hdenln2 : ∀ σ b, den w nd.negative σ = some b →
                den w2 ln σ = some (!b) := fun σ b hb =>
              den_mono_world hext2.heap (hden1 σ b hb)
            have hdenlp2 : ∀ σ b, den w nd.positive σ = some b →
                den w2 lp σ = some (!b) := fun σ b hb =>
              hden2 σ b (den_mono_world hext1.heap hb)
            by_cases hlp : ln = lp
            · -- the two complements collapse: emplace returns the child
              subst hlp
              simp only [emplace_same, Option.some.injEq, Prod.mk.injEq] at heq
              obtain ⟨rfl, rfl, rfl⟩ := heq
              have hext12 : ExtendsAt si w w2 := hext1.trans hext2
              have hwfA2 : Wf w2 st2 (.addr a) :=
                hext12.wf hinv.get hinv2.get hwf
              have htopRes : ∀ d, topGt w d (.addr a) → topGt w2 d ln := by
                intro d hd
                have hdlt : d < nd.depth := topGt_elim hheap hd
                exact topGt_mono hext2.heap
                  (htop1 d (topGt_of_le (by omega) hgtn))
              have hdenRes : ∀ σ b, den w (.addr a) σ = some b →
                  den w2 ln σ = some (!b) := by
                intro σ b hb
                rw [den_step_wf hwf hheap] at hb
                cases hσ : σ nd.depth
                · rw [hσ] at hb
                  simp only [Bool.false_eq_true, if_false] at hb
                  exact hdenln2 σ b hb
                · rw [hσ] at hb
                  simp only [if_true] at hb
                  exact hdenlp2 σ b hb
              refine ⟨st2, hinv2, hext12, ?_, hwfln2, htopRes, hdenRes⟩
              -- the extended cache is correct
              intro k v hkv
              by_cases hk : NodeRef.addr a = k
              · subst hk
                simp only [lookupRef, if_pos rfl] at hkv
                obtain rfl := Option.some.inj hkv
                refine ⟨hwfA2, hwfln2, ?_, ?_⟩
                · intro d hd
                  exact htopRes d (topGt_reflect hext12.heap hwf hd)
                · intro σ b hb
                  exact hdenRes σ b (den_reflect hext12.heap hwf hb)
              · have hkv' : lookupRef k c2 = some v := by
                  revert hkv
                  simp only [lookupRef]
                  rw [if_neg hk]
                  exact id
                exact hc2 k v hkv'
            · -- genuinely distinct complements: intern a new node
              obtain ⟨a', w3, st3, heq3, hinv3, hext3, hheap3, hstore3, hwf3⟩ :=
                emplace_ok hinv2 hlp hwfln2 hwflp hgtln2 hgtlp2
              simp only [heq3, Option.some.injEq, Prod.mk.injEq] at heq
              obtain ⟨rfl, rfl, rfl⟩ := heq
              have hext23 : ExtendsAt si w2 w3 := hext3
              have hextAll : ExtendsAt si w w3 :=
                hext1.trans (hext2.trans hext3)
              have hwfA3 : Wf w3 st3 (.addr a) :=
                hextAll.wf hinv.get hinv3.get hwf
              have htopRes : ∀ d, topGt w d (.addr a) → topGt w3 d (.addr a') := by
                intro d hd
                have hdlt : d < nd.depth := topGt_elim hheap hd
                exact ⟨⟨nd.depth, ln, lp⟩, hheap3, hdlt⟩
              have hdenRes : ∀ σ b, den w (.addr a) σ = some b →
                  den w3 (.addr a') σ = some (!b) := by
                intro σ b hb
                rw [den_step_wf hwf hheap] at hb
                rw [den_step_wf hwf3 hheap3]
                cases hσ : σ nd.depth
                · rw [hσ] at hb
                  simp only [Bool.false_eq_true, if_false] at hb ⊢
                  exact den_mono_world hext3.heap (hdenln2 σ b hb)
                · rw [hσ] at hb
                  simp only [if_true] at hb ⊢
                  exact den_mono_world hext3.heap (hdenlp2 σ b hb)
              refine ⟨st3, hinv3, hextAll, ?_, hwf3, htopRes, hdenRes⟩
              intro k v hkv
              by_cases hk : NodeRef.addr a = k
              · subst hk
                simp only [lookupRef, if_pos rfl] at hkv
                obtain rfl := Option.some.inj hkv
                refine ⟨hwfA3, hwf3, ?_, ?_⟩
                · intro d hd
                  exact htopRes d (topGt_reflect hextAll.heap hwf hd)
                · intro σ b hb
                  exact hdenRes σ b (den_reflect hextAll.heap hwf hb)
              · have hkv' : lookupRef k c2 = some v := by
                  revert hkv
                  simp only [lookupRef]
                  rw [if_neg hk]
                  exact id
                exact ICacheOk_mono hext3.heap
                  (hext3.storeGrow hinv2.get hinv3.get) hc2 k v hkv'

theorem ICacheOk_nil (w : World) (st : Store) : ICacheOk w st [] := by
  intro k v h
  simp [lookupRef] at h

/-- Totality of `invert`: the address bound is sufficient fuel on any
well-formed input within a live session. -/
theorem invert_total : ∀ (n : Nat) {w : World} {si : Nat} {st : Store}
    {c : ICache} {r : NodeRef}, rank r ≤ n →
    SessionInv w si st → Wf w st r → ICacheOk w st c →
    ∃ out, invert n w c r = some out := by
  intro n
  induction n with
  | zero =>
    intro w si st c r hrank hinv hwf hc
    cases r with
    | ZERO => exact ⟨_, rfl⟩
    | ONE => exact ⟨_, rfl⟩
    | addr a => simp [rank] at hrank
  | succ n ih =>
    intro w si st c r hrank hinv hwf hc
    cases r with
    | ZERO => exact ⟨_, rfl⟩
    | ONE => exact ⟨_, rfl⟩
    | addr a =>
      rw [invert]
      cases hhit : lookupRef (.addr a) c with
      | some v => exact ⟨_, rfl⟩
      | none =>
        obtain ⟨nd, hheap, hstore, hred, hltn, hltp, hgtn, hgtp, hwfn, hwfp⟩ :
            ∃ nd, lookupA a w.heap = some nd ∧ lookupNode nd st = some a ∧
              nd.negative ≠ nd.positive ∧ childLt a nd.negative ∧
              childLt a nd.positive ∧ topGt w nd.depth nd.negative ∧
              topGt w nd.depth nd.positive ∧ Wf w st nd.negative ∧
              Wf w st nd.positive := by
          cases hwf with
          | node a nd h1 h2 h3 h4 h5 h6 h7 h8 h9 =>
            exact ⟨nd, h1, h2, h3, h4, h5, h6, h7, h8, h9⟩
        have ha : a ≤ n := by simp only [rank] at hrank; omega
        obtain ⟨⟨ln, c1, w1⟩, h1⟩ :=
          ih (le_trans (rank_le_of_childLt hltn) ha) hinv hwfn hc
        obtain ⟨st1, hinv1, hext1, hc1, hwfln, htop1, hden1⟩ :=
          invert_ok n h1 hinv hwfn hc
        have hwfp1 : Wf w1 st1 nd.positive := hext1.wf hinv.get hinv1.get hwfp
        obtain ⟨⟨lp, c2, w2⟩, h2⟩ :=
          ih (le_trans (rank_le_of_childLt hltp) ha) hinv1 hwfp1 hc1
        obtain ⟨st2, hinv2, hext2, hc2, hwflp, htop2, hden2⟩ :=
          invert_ok n h2 hinv1 hwfp1 hc1
        simp only [hheap, h1, h2]
        by_cases hlp : ln = lp
        · subst hlp
          simp only [emplace_same]
          exact ⟨_, rfl⟩
        · have hwfln2 : Wf w2 st2 ln := hext2.wf hinv1.get hinv2.get hwfln
          have hgtln2 : topGt w2 nd.depth ln :=
            topGt_mono hext2.heap (htop1 nd.depth hgtn)
          have hgtlp2 : topGt w2 nd.depth lp :=
            htop2 nd.depth (topGt_mono hext1.heap hgtp)
          obtain ⟨a', w3, st3, heq3, _, _, _, _, _⟩ :=
            emplace_ok hinv2 hlp hwfln2 hwflp hgtln2 hgtlp2
          simp only [heq3]
          exact ⟨_, rfl⟩

/-- The public `invert` overload succeeds on any well-formed session
diagram and returns its well-formed complement. -/
theorem invertTop_ok {w : World} {si : Nat} {st : Store} {r : NodeRef}
    (hinv : SessionInv w si st) (hwf : Wf w st r) :
    ∃ res w' st', invertTop w r = some (res, w') ∧
      SessionInv w' si st' ∧ ExtendsAt si w w' ∧ Wf w' st' res ∧
      (∀ d, topGt w d r → topGt w' d res) ∧
      (∀ σ b, den w r σ = some b → den w' res σ = some (!b)) := by
  obtain ⟨⟨res, c', w'⟩, hrun⟩ :=
    invert_total (rank r) (le_refl _) hinv hwf (ICacheOk_nil w st)
  obtain ⟨st', hinv', hext, _, hwfres, htop, hden⟩ :=
    invert_ok (rank r) hrun hinv hwf (ICacheOk_nil w st)
  refine ⟨res, w', st', ?_, hinv', hext, hwfres, htop, hden⟩
  rw [invertTop, hrun]

/-! ## The join operator -/


theorem OpPair.comm {ident antident : NodeRef} {op : Bool → Bool → Bool}
    (h : OpPair ident antident op) (b₁ b₂ : Bool) : op b₁ b₂ = op b₂ b₁ := by
  rcases h with ⟨_, _, rfl⟩ | ⟨_, _, rfl⟩
  · exact Bool.or_comm b₁ b₂
  · exact Bool.and_comm b₁ b₂

/-- A non-terminal operand: after the identity and annihilator
short-circuits both operands are addresses. -/
theorem OpPair.addr_of_ne {ident antident x : NodeRef}
    {op : Bool → Bool → Bool} (h : OpPair ident antident op)
    (h₁ : x ≠ ident) (h₂ : x ≠ antident) :
    ∃ ax, x = .addr ax := by
  cases x with
  | addr ax => exact ⟨ax, rfl⟩
  | ZERO =>
    rcases h with ⟨rfl, rfl, _⟩ | ⟨rfl, rfl, _⟩
    · exact absurd rfl h₁
    · exact absurd rfl h₂
  | ONE =>
    rcases h with ⟨rfl, rfl, _⟩ | ⟨rfl, rfl, _⟩
    · exact absurd rfl h₂
    · exact absurd rfl h₁

theorem wf_addr_elim {w : World} {st : Store} {a : Nat}
    (h : Wf w st (.addr a)) :
    ∃ nd, lookupA a w.heap = some nd ∧ lookupNode nd st = some a ∧
      nd.negative ≠ nd.positive ∧ childLt a nd.negative ∧
      childLt a nd.positive ∧ topGt w nd.depth nd.negative ∧
      topGt w nd.depth nd.positive ∧ Wf w st nd.negative ∧
      Wf w st nd.positive := by
  cases h with
  | node a nd h1 h2 h3 h4 h5 h6 h7 h8 h9 =>
    exact ⟨nd, h1, h2, h3, h4, h5, h6, h7, h8, h9⟩

/-- Identity on the left: `join(ident, _, ident, y) = y` is correct. -/
theorem join_sc_ident_left {w : World} {st : Store}
    {ident antident y : NodeRef} {op : Bool → Bool → Bool}
    (hop : OpPair ident antident op) (hwy : Wf w st y) :
    Wf w st y ∧ (∀ d, topGt w d ident → topGt w d y → topGt w d y) ∧
    (∀ σ bx b2, den w ident σ = some bx → den w y σ = some b2 →
      den w y σ = some (op bx b2)) := by
  refine ⟨hwy, fun d _ h => h, ?_⟩
  intro σ bx b2 hbx hb2
  rcases hop with ⟨rfl, rfl, rfl⟩ | ⟨rfl, rfl, rfl⟩
  · obtain rfl : false = bx := Option.some.inj hbx
    rw [show (false || b2) = b2 from Bool.false_or b2]
    exact hb2
  · obtain rfl : true = bx := Option.some.inj hbx
    rw [show (true && b2) = b2 from Bool.true_and b2]
    exact hb2

/-- Identity on the right: `join(ident, _, x, ident) = x` is correct. -/
theorem join_sc_ident_right {w : World} {st : Store}
    {ident antident x : NodeRef} {op : Bool → Bool → Bool}
    (hop : OpPair ident antident op) (hwx : Wf w st x) :
    Wf w st x ∧ (∀ d, topGt w d x → topGt w d ident → topGt w d x) ∧
    (∀ σ bx b2, den w x σ = some bx → den w ident σ = some b2 →
      den w x σ = some (op bx b2)) := by
  refine ⟨hwx, fun d h _ => h, ?_⟩
  intro σ bx b2 hbx hb2
  rcases hop with ⟨rfl, rfl, rfl⟩ | ⟨rfl, rfl, rfl⟩
  · obtain rfl : false = b2 := Option.some.inj hb2
    rw [show (bx || false) = bx from Bool.or_false bx]
    exact hbx
  · obtain rfl : true = b2 := Option.some.inj hb2
    rw [show (bx && true) = bx from Bool.and_true bx]
    exact hbx

/-- Annihilator: `join(_, antident, x, y) = antident` is correct when
either operand is the annihilator. -/
theorem join_sc_antident {w : World} {st : Store}
    {ident antident x y : NodeRef} {op : Bool → Bool → Bool}
    (hop : OpPair ident antident op) (hxa : x = antident ∨ y = antident) :
    Wf w st antident ∧
    (∀ d, topGt w d x → topGt w d y → topGt w d antident) ∧
    (∀ σ bx b2, den w x σ = some bx → den w y σ = some b2 →
      den w antident σ = some (op bx b2)) := by
  rcases hop with ⟨rfl, rfl, rfl⟩ | ⟨rfl, rfl, rfl⟩
  · refine ⟨.one, fun d _ _ => trivial, ?_⟩
    intro σ bx b2 hbx hb2
    rcases hxa with rfl | rfl
    · obtain rfl : true = bx := Option.some.inj hbx
      rw [show (true || b2) = true from Bool.true_or b2]
      rfl
    · obtain rfl : true = b2 := Option.some.inj hb2
      rw [show (bx || true) = true from Bool.or_true bx]
      rfl
  · refine ⟨.zero, fun d _ _ => trivial, ?_⟩
    intro σ bx b2 hbx hb2
    rcases hxa with rfl | rfl
    · obtain rfl : false = bx := Option.some.inj hbx
      rw [show (false && b2) = false from Bool.false_and b2]
      rfl
    · obtain rfl : false = b2 := Option.some.inj hb2
      rw [show (bx && false) = false from Bool.and_false bx]
      rfl

theorem pairKey_cases (x y : NodeRef) :
    pairKey x y = (x, y) ∨ pairKey x y = (y, x) := by
  unfold pairKey
  split
  · exact Or.inl rfl
  · exact Or.inr rfl


theorem JCacheOk_nil (w : World) (st : Store) (op : Bool → Bool → Bool) :
    JCacheOk w st op [] := by
  intro u v z h
  simp [lookupKey] at h

theorem JCacheOk_mono {w w' : World} {st st' : Store}
    {op : Bool → Bool → Bool} {c : JCache}
    (hh : ∀ a nd, lookupA a w.heap = some nd → lookupA a w'.heap = some nd)
    (hs : ∀ nd a, lookupNode nd st = some a → lookupNode nd st' = some a)
    (hc : JCacheOk w st op c) : JCacheOk w' st' op c := by
  intro u v z h
  obtain ⟨hu, hv, hz, htop, hden⟩ := hc u v z h
  refine ⟨Wf_mono hh hs hu, Wf_mono hh hs hv, Wf_mono hh hs hz, ?_, ?_⟩
  · intro d hdu hdv
    exact topGt_mono hh
      (htop d (topGt_reflect hh hu hdu) (topGt_reflect hh hv hdv))
  · intro σ bu bv hbu hbv
    exact den_mono_world hh
      (hden σ bu bv (den_reflect hh hu hbu) (den_reflect hh hv hbv))

/-- Partial correctness of the cached `join`: a successful run preserves
the session invariant, extends the world, keeps the cache correct, and
returns a well-formed diagram denoting the pointwise combination of the
operand denotations under the selected operator, with a top variable no
earlier than any common bound of the operands. -/
theorem join_ok : ∀ (fuel : Nat) {w w' : World} {si : Nat} {st : Store}
    {c c' : JCache} {ident antident x y res : NodeRef}
    {op : Bool → Bool → Bool},
    join fuel w c ident antident x y = some (res, c', w') →
    OpPair ident antident op →
    SessionInv w si st → Wf w st x → Wf w st y → JCacheOk w st op c →
    ∃ st', SessionInv w' si st' ∧ ExtendsAt si w w' ∧
      JCacheOk w' st' op c' ∧ Wf w' st' res ∧
      (∀ d, topGt w d x → topGt w d y → topGt w' d res) ∧
      (∀ σ bx b2, den w x σ = some bx → den w y σ = some b2 →
        den w' res σ = some (op bx b2)) := by
  intro fuel
  induction fuel with
  | zero =>
    intro w w' si st c c' ident antident x y res op heq hop hinv hwx hwy hc
    by_cases hxi : x = ident
    · rw [join, if_pos hxi] at heq
      simp only [Option.some.injEq, Prod.mk.injEq] at heq
      obtain ⟨rfl, rfl, rfl⟩ := heq
      subst hxi
      obtain ⟨h1, h2, h3⟩ := join_sc_ident_left hop hwy
      exact ⟨st, hinv, ExtendsAt.refl si w, hc, h1, h2, h3⟩
    · by_cases hyi : y = ident
      · rw [join, if_neg hxi, if_pos hyi] at heq
        simp only [Option.some.injEq, Prod.mk.injEq] at heq
        obtain ⟨rfl, rfl, rfl⟩ := heq
        subst hyi
        obtain ⟨h1, h2, h3⟩ := join_sc_ident_right hop hwx
        exact ⟨st, hinv, ExtendsAt.refl si w, hc, h1, h2, h3⟩
      · by_cases hxa : x = antident ∨ y = antident
        · rw [join, if_neg hxi, if_neg hyi, if_pos hxa] at heq
          simp only [Option.some.injEq, Prod.mk.injEq] at heq
          obtain ⟨rfl, rfl, rfl⟩ := heq
          obtain ⟨h1, h2, h3⟩ := @join_sc_antident w st ident antident x y op hop hxa
          exact ⟨st, hinv, ExtendsAt.refl si w, hc, h1, h2, h3⟩
        · rw [join, if_neg hxi, if_neg hyi, if_neg hxa] at heq
          exact Option.noConfusion heq
  | succ fuel ih =>
    intro w w' si st c c' ident antident x y res op heq hop hinv hwx hwy hc
    by_cases hxi : x = ident
    · rw [join, if_pos hxi] at heq
      simp only [Option.some.injEq, Prod.mk.injEq] at heq
      obtain ⟨rfl, rfl, rfl⟩ := heq
      subst hxi
      obtain ⟨h1, h2, h3⟩ := join_sc_ident_left hop hwy
      exact ⟨st, hinv, ExtendsAt.refl si w, hc, h1, h2, h3⟩
    · by_cases hyi : y = ident
      · rw [join, if_neg hxi, if_pos hyi] at heq
        simp only [Option.some.injEq, Prod.mk.injEq] at heq
        obtain ⟨rfl, rfl, rfl⟩ := heq
        subst hyi
        obtain ⟨h1, h2, h3⟩ := join_sc_ident_right hop hwx
        exact ⟨st, hinv, ExtendsAt.refl si w, hc, h1, h2, h3⟩
      · by_cases hxa : x = antident ∨ y = antident
        · rw [join, if_neg hxi, if_neg hyi, if_pos hxa] at heq
          simp only [Option.some.injEq, Prod.mk.injEq] at heq
          obtain ⟨rfl, rfl, rfl⟩ := heq
          obtain ⟨h1, h2, h3⟩ := @join_sc_antident w st ident antident x y op hop hxa
          exact ⟨st, hinv, ExtendsAt.refl si w, hc, h1, h2, h3⟩
        · rw [join, if_neg hxi, if_neg hyi, if_neg hxa] at heq
          obtain ⟨ax, rfl⟩ :=
            hop.addr_of_ne hxi (fun h => hxa (Or.inl h))
          obtain ⟨ay, rfl⟩ :=
            hop.addr_of_ne hyi (fun h => hxa (Or.inr h))
          obtain ⟨ndx, hheapx, hstox, hredx, hltnx, hltpx, hgtnx, hgtpx,
            hwfnx, hwfpx⟩ := wf_addr_elim hwx
          obtain ⟨ndy, hheapy, hstoy, hredy, hltny, hltpy, hgtny, hgtpy,
            hwfny, hwfpy⟩ := wf_addr_elim hwy
          simp only [World.deref, hheapx, hheapy] at heq
          cases hhit : lookupKey (pairKey (.addr ax) (.addr ay)) c with
          | some v =>
            simp only [hhit, Option.some.injEq, Prod.mk.injEq] at heq
            obtain ⟨rfl, rfl, rfl⟩ := heq
            rcases pairKey_cases (NodeRef.addr ax) (NodeRef.addr ay) with
              hkey | hkey
            · rw [hkey] at hhit
              obtain ⟨hu, hv, hz, htopz, hdenz⟩ := hc _ _ _ hhit
              exact ⟨st, hinv, ExtendsAt.refl si w, hc, hz, htopz, hdenz⟩
            · rw [hkey] at hhit
              obtain ⟨hu, hv, hz, htopz, hdenz⟩ := hc _ _ _ hhit
              refine ⟨st, hinv, ExtendsAt.refl si w, hc, hz, ?_, ?_⟩
              · intro d h1 h2
                exact htopz d h2 h1
              · intro σ bx b2 h1 h2
                rw [hop.comm]
                exact hdenz σ b2 bx h2 h1
          | none =>
            simp only [hhit] at heq
            -- facts about the four branch views
            have hwxl : Wf w st
                (if ndx.depth > ndy.depth then .addr ax else ndx.negative) := by
              split
              · exact hwx
              · exact hwfnx
            have hwxr : Wf w st
                (if ndx.depth > ndy.depth then .addr ax else ndx.positive) := by
              split
              · exact hwx
              · exact hwfpx
            have hwyl : Wf w st
                (if ndy.depth > ndx.depth then .addr ay else ndy.negative) := by
              split
              · exact hwy
              · exact hwfny
            have hwyr : Wf w st
                (if ndy.depth > ndx.depth then .addr ay else ndy.positive) := by
              split
              · exact hwy
              · exact hwfpy
            have htopxl : topGt w (min ndx.depth ndy.depth)
                (if ndx.depth > ndy.depth then .addr ax else ndx.negative) := by
              split
              · exact ⟨ndx, hheapx,
                  lt_of_le_of_lt (Nat.min_le_right _ _) (by omega)⟩
              · exact topGt_of_le (Nat.min_le_left _ _) hgtnx
            have htopxr : topGt w (min ndx.depth ndy.depth)
                (if ndx.depth > ndy.depth then .addr ax else ndx.positive) := by
              split
              · exact ⟨ndx, hheapx,
                  lt_of_le_of_lt (Nat.min_le_right _ _) (by omega)⟩
              · exact topGt_of_le (Nat.min_le_left _ _) hgtpx
            have htopyl : topGt w (min ndx.depth ndy.depth)
                (if ndy.depth > ndx.depth then .addr ay else ndy.negative) := by
              split
              · exact ⟨ndy, hheapy,
                  lt_of_le_of_lt (Nat.min_le_left _ _) (by omega)⟩
              · exact topGt_of_le (Nat.min_le_right _ _) hgtny
            have htopyr : topGt w (min ndx.depth ndy.depth)
                (if ndy.depth > ndx.depth then .addr ay else ndy.positive) := by
              split
              · exact ⟨ndy, hheapy,
                  lt_of_le_of_lt (Nat.min_le_left _ _) (by omega)⟩
              · exact topGt_of_le (Nat.min_le_right _ _) hgtpy
            cases h1 : join fuel w c ident antident
                (if ndx.depth > ndy.depth then .addr ax else ndx.negative)
                (if ndy.depth > ndx.depth then .addr ay else ndy.negative) with
            | none => simp only [h1] at heq; exact Option.noConfusion heq
            | some t1 =>
              obtain ⟨rl, c1, w1⟩ := t1
              simp only [h1] at heq
              cases h2 : join fuel w1 c1 ident antident
                  (if ndx.depth > ndy.depth then .addr ax else ndx.positive)
                  (if ndy.depth > ndx.depth then .addr ay else ndy.positive) with
              | none => simp only [h2] at heq; exact Option.noConfusion heq
              | some t2 =>
                obtain ⟨rr, c2, w2⟩ := t2
                simp only [h2] at heq
                obtain ⟨st1, hinv1, hext1, hc1, hwrl, htoprl, hdenrl⟩ :=
                  ih h1 hop hinv hwxl hwyl hc
                have hwxr1 := hext1.wf hinv.get hinv1.get hwxr
                have hwyr1 := hext1.wf hinv.get hinv1.get hwyr
                obtain ⟨st2, hinv2, hext2, hc2, hwrr, htoprr, hdenrr⟩ :=
                  ih h2 hop hinv1 hwxr1 hwyr1 hc1
                have hext12 : ExtendsAt si w w2 := hext1.trans hext2
                have htoprl2 : topGt w2 (min ndx.depth ndy.depth) rl :=
                  topGt_mono hext2.heap (htoprl _ htopxl htopyl)
                have htoprr2 : topGt w2 (min ndx.depth ndy.depth) rr :=
                  htoprr _ (topGt_mono hext1.heap htopxr)
                    (topGt_mono hext1.heap htopyr)
                -- the two cofactor denotations of the combination
                have hdenL : ∀ σ bx b2, den w (.addr ax) σ = some bx →
                    den w (.addr ay) σ = some b2 →
                    σ (min ndx.depth ndy.depth) = false →
                    den w2 rl σ = some (op bx b2) := by
                  intro σ bx b2 hbx hb2 hσ
                  have hxl' : den w
                      (if ndx.depth > ndy.depth then .addr ax else ndx.negative)
                      σ = some bx := by
                    split
                    · exact hbx
                    · rename_i hnd
                      rw [den_step_wf hwx hheapx] at hbx
                      have hdx : ndx.depth = min ndx.depth ndy.depth :=
                        (Nat.min_eq_left (by omega)).symm
                      rw [hdx, hσ] at hbx
                      simpa using hbx
                  have hyl' : den w
                      (if ndy.depth > ndx.depth then .addr ay else ndy.negative)
                      σ = some b2 := by
                    split
                    · exact hb2
                    · rename_i hnd
                      rw [den_step_wf hwy hheapy] at hb2
                      have hdy : ndy.depth = min ndx.depth ndy.depth :=
                        (Nat.min_eq_right (by omega)).symm
                      rw [hdy, hσ] at hb2
                      simpa using hb2
                  exact den_mono_world hext2.heap (hdenrl σ bx b2 hxl' hyl')
                have hdenR : ∀ σ bx b2, den w (.addr ax) σ = some bx →
                    den w (.addr ay) σ = some b2 →
                    σ (min ndx.depth ndy.depth) = true →
                    den w2 rr σ = some (op bx b2) := by
                  intro σ bx b2 hbx hb2 hσ
                  have hxr' : den w
                      (if ndx.depth > ndy.depth then .addr ax else ndx.positive)
                      σ = some bx := by
                    split
                    · exact hbx
                    · rename_i hnd
                      rw [den_step_wf hwx hheapx] at hbx
                      have hdx : ndx.depth = min ndx.depth ndy.depth :=
                        (Nat.min_eq_left (by omega)).symm
                      rw [hdx, hσ] at hbx
                      simpa using hbx
                  have hyr' : den w
                      (if ndy.depth > ndx.depth then .addr ay else ndy.positive)
                      σ = some b2 := by
                    split
                    · exact hb2
                    · rename_i hnd
                      rw [den_step_wf hwy hheapy] at hb2
                      have hdy : ndy.depth = min ndx.depth ndy.depth :=
                        (Nat.min_eq_right (by omega)).symm
                      rw [hdy, hσ] at hb2
                      simpa using hb2
                  exact hdenrr σ bx b2
                    (den_mono_world hext1.heap hxr')
                    (den_mono_world hext1.heap hyr')
                by_cases hrl : rl = rr
                · -- the two cofactors collapse
                  subst hrl
                  simp only [emplace_same, Option.some.injEq,
                    Prod.mk.injEq] at heq
                  obtain ⟨rfl, rfl, rfl⟩ := heq
                  have hwrl2 : Wf w2 st2 rl :=
                    hext2.wf hinv1.get hinv2.get hwrl
                  have htopRes : ∀ d, topGt w d (.addr ax) →
                      topGt w d (.addr ay) → topGt w2 d rl := by
                    intro d hdx hdy
                    have hdm : d < min ndx.depth ndy.depth :=
                      lt_min (topGt_elim hheapx hdx) (topGt_elim hheapy hdy)
                    exact topGt_mono hext2.heap (htoprl d
                      (topGt_of_le (le_of_lt hdm) htopxl)
                      (topGt_of_le (le_of_lt hdm) htopyl))
                  have hdenRes : ∀ σ bx b2, den w (.addr ax) σ = some bx →
                      den w (.addr ay) σ = some b2 →
                      den w2 rl σ = some (op bx b2) := by
                    intro σ bx b2 hbx hb2
                    cases hσ : σ (min ndx.depth ndy.depth)
                    · exact hdenL σ bx b2 hbx hb2 hσ
                    · exact hdenR σ bx b2 hbx hb2 hσ
                  refine ⟨st2, hinv2, hext12, ?_, hwrl2, htopRes, hdenRes⟩
                  intro u v z hkv
                  by_cases hk : pairKey (.addr ax) (.addr ay) = (u, v)
                  · rw [lookupKey, if_pos hk] at hkv
                    obtain rfl := Option.some.inj hkv
                    have hwx2 : Wf w2 st2 (.addr ax) :=
                      hext12.wf hinv.get hinv2.get hwx
                    have hwy2 : Wf w2 st2 (.addr ay) :=
                      hext12.wf hinv.get hinv2.get hwy
                    rcases pairKey_cases (NodeRef.addr ax) (NodeRef.addr ay)
                      with hkey | hkey
                    · rw [hkey] at hk
                      obtain ⟨rfl, rfl⟩ := Prod.mk.injEq .. ▸ hk
                      refine ⟨hwx2, hwy2, hwrl2, ?_, ?_⟩
                      · intro d h1' h2'
                        exact htopRes d
                          (topGt_reflect hext12.heap hwx h1')
                          (topGt_reflect hext12.heap hwy h2')
                      · intro σ bu bv h1' h2'
                        exact hdenRes σ bu bv
                          (den_reflect hext12.heap hwx h1')
                          (den_reflect hext12.heap hwy h2')
                    · rw [hkey] at hk
                      obtain ⟨rfl, rfl⟩ := Prod.mk.injEq .. ▸ hk
                      refine ⟨hwy2, hwx2, hwrl2, ?_, ?_⟩
                      · intro d h1' h2'
                        exact htopRes d
                          (topGt_reflect hext12.heap hwx h2')
                          (topGt_reflect hext12.heap hwy h1')
                      · intro σ bu bv h1' h2'
                        rw [hop.comm]
                        exact hdenRes σ bv bu
                          (den_reflect hext12.heap hwx h2')
                          (den_reflect hext12.heap hwy h1')
                  · rw [lookupKey, if_neg hk] at hkv
                    exact hc2 u v z hkv
                · -- genuinely distinct cofactors: intern a new node
                  have hwrl2 : Wf w2 st2 rl :=
                    hext2.wf hinv1.get hinv2.get hwrl
                  obtain ⟨a', w3, st3, heq3, hinv3, hext3, hheap3, hstore3,
                    hwf3⟩ := emplace_ok hinv2 hrl hwrl2 hwrr htoprl2 htoprr2
                  simp only [heq3, Option.some.injEq, Prod.mk.injEq] at heq
                  obtain ⟨rfl, rfl, rfl⟩ := heq
                  have hextAll : ExtendsAt si w w3 := hext12.trans hext3
                  have htopRes : ∀ d, topGt w d (.addr ax) →
                      topGt w d (.addr ay) → topGt w3 d (.addr a') := by
                    intro d hdx hdy
                    have hdm : d < min ndx.depth ndy.depth :=
                      lt_min (topGt_elim hheapx hdx) (topGt_elim hheapy hdy)
                    exact ⟨⟨min ndx.depth ndy.depth, rl, rr⟩, hheap3, hdm⟩
                  have hdenRes : ∀ σ bx b2, den w (.addr ax) σ = some bx →
                      den w (.addr ay) σ = some b2 →
                      den w3 (.addr a') σ = some (op bx b2) := by
                    intro σ bx b2 hbx hb2
                    rw [den_step_wf hwf3 hheap3]
                    cases hσ : σ (min ndx.depth ndy.depth)
                    · simp only [Bool.false_eq_true, if_false]
                      exact den_mono_world hext3.heap
                        (hdenL σ bx b2 hbx hb2 hσ)
                    · simp only [if_true]
                      exact den_mono_world hext3.heap
                        (hdenR σ bx b2 hbx hb2 hσ)
                  refine ⟨st3, hinv3, hextAll, ?_, hwf3, htopRes, hdenRes⟩
                  intro u v z hkv
                  by_cases hk : pairKey (.addr ax) (.addr ay) = (u, v)
                  · rw [lookupKey, if_pos hk] at hkv
                    obtain rfl := Option.some.inj hkv
                    have hwx3 : Wf w3 st3 (.addr ax) :=
                      hextAll.wf hinv.get hinv3.get hwx
                    have hwy3 : Wf w3 st3 (.addr ay) :=
                      hextAll.wf hinv.get hinv3.get hwy
                    rcases pairKey_cases (NodeRef.addr ax) (NodeRef.addr ay)
                      with hkey | hkey
                    · rw [hkey] at hk
                      obtain ⟨rfl, rfl⟩ := Prod.mk.injEq .. ▸ hk
                      refine ⟨hwx3, hwy3, hwf3, ?_, ?_⟩
                      · intro d h1' h2'
                        exact htopRes d
                          (topGt_reflect hextAll.heap hwx h1')
                          (topGt_reflect hextAll.heap hwy h2')
                      · intro σ bu bv h1' h2'
                        exact hdenRes σ bu bv
                          (den_reflect hextAll.heap hwx h1')
                          (den_reflect hextAll.heap hwy h2')
                    · rw [hkey] at hk
                      obtain ⟨rfl, rfl⟩ := Prod.mk.injEq .. ▸ hk
                      refine ⟨hwy3, hwx3, hwf3, ?_, ?_⟩
                      · intro d h1' h2'
                        exact htopRes d
                          (topGt_reflect hextAll.heap hwx h2')
                          (topGt_reflect hextAll.heap hwy h1')
                      · intro σ bu bv h1' h2'
                        rw [hop.comm]
                        exact hdenRes σ bv bu
                          (den_reflect hextAll.heap hwx h2')
                          (den_reflect hextAll.heap hwy h1')
                  · rw [lookupKey, if_neg hk] at hkv
                    exact JCacheOk_mono hext3.heap
                      (hext3.storeGrow hinv2.get hinv3.get) hc2 u v z hkv

/-- Totality of `join`: the sum of the address bounds of the two
operands is sufficient fuel on well-formed inputs, because every
recursive call strictly decreases that sum. -/
theorem join_total : ∀ (n : Nat) {w : World} {si : Nat} {st : Store}
    {c : JCache} {ident antident x y : NodeRef} {op : Bool → Bool → Bool},
    rank x + rank y < n →
    OpPair ident antident op →
    SessionInv w si st → Wf w st x → Wf w st y → JCacheOk w st op c →
    ∃ out, join n w c ident antident x y = some out := by
  intro n
  induction n with
  | zero =>
    intro w si st c ident antident x y op hn
    omega
  | succ n ih =>
    intro w si st c ident antident x y op hn hop hinv hwx hwy hc
    by_cases hxi : x = ident
    · exact ⟨_, by rw [join, if_pos hxi]⟩
    · by_cases hyi : y = ident
      · exact ⟨_, by rw [join, if_neg hxi, if_pos hyi]⟩
      · by_cases hxa : x = antident ∨ y = antident
        · exact ⟨_, by rw [join, if_neg hxi, if_neg hyi, if_pos hxa]⟩
        · rw [join, if_neg hxi, if_neg hyi, if_neg hxa]
          obtain ⟨ax, rfl⟩ :=
            hop.addr_of_ne hxi (fun h => hxa (Or.inl h))
          obtain ⟨ay, rfl⟩ :=
            hop.addr_of_ne hyi (fun h => hxa (Or.inr h))
          obtain ⟨ndx, hheapx, hstox, hredx, hltnx, hltpx, hgtnx, hgtpx,
            hwfnx, hwfpx⟩ := wf_addr_elim hwx
          obtain ⟨ndy, hheapy, hstoy, hredy, hltny, hltpy, hgtny, hgtpy,
            hwfny, hwfpy⟩ := wf_addr_elim hwy
          simp only [World.deref, hheapx, hheapy]
          cases hhit : lookupKey (pairKey (.addr ax) (.addr ay)) c with
          | some v => exact ⟨_, rfl⟩
          | none =>
            have hwxl : Wf w st
                (if ndx.depth > ndy.depth then .addr ax else ndx.negative) := by
              split
              · exact hwx
              · exact hwfnx
            have hwxr : Wf w st
                (if ndx.depth > ndy.depth then .addr ax else ndx.positive) := by
              split
              · exact hwx
              · exact hwfpx
            have hwyl : Wf w st
                (if ndy.depth > ndx.depth then .addr ay else ndy.negative) := by
              split
              · exact hwy
              · exact hwfny
            have hwyr : Wf w st
                (if ndy.depth > ndx.depth then .addr ay else ndy.positive) := by
              split
              · exact hwy
              · exact hwfpy
            have htopxl : topGt w (min ndx.depth ndy.depth)
                (if ndx.depth > ndy.depth then .addr ax else ndx.negative) := by
              split
              · exact ⟨ndx, hheapx,
                  lt_of_le_of_lt (Nat.min_le_right _ _) (by omega)⟩
              · exact topGt_of_le (Nat.min_le_left _ _) hgtnx
            have htopxr : topGt w (min ndx.depth ndy.depth)
                (if ndx.depth > ndy.depth then .addr ax else ndx.positive) := by
              split
              · exact ⟨ndx, hheapx,
                  lt_of_le_of_lt (Nat.min_le_right _ _) (by omega)⟩
              · exact topGt_of_le (Nat.min_le_left _ _) hgtpx
            have htopyl : topGt w (min ndx.depth ndy.depth)
                (if ndy.depth > ndx.depth then .addr ay else ndy.negative) := by
              split
              · exact ⟨ndy, hheapy,
                  lt_of_le_of_lt (Nat.min_le_left _ _) (by omega)⟩
              · exact topGt_of_le (Nat.min_le_right _ _) hgtny
            have htopyr : topGt w (min ndx.depth ndy.depth)
                (if ndy.depth > ndx.depth then .addr ay else ndy.positive) := by
              split
              · exact ⟨ndy, hheapy,
                  lt_of_le_of_lt (Nat.min_le_left _ _) (by omega)⟩
              · exact topGt_of_le (Nat.min_le_right _ _) hgtpy
            have hsumL :
                rank (if ndx.depth > ndy.depth then NodeRef.addr ax else ndx.negative) +
                rank (if ndy.depth > ndx.depth then NodeRef.addr ay else ndy.negative) < n := by
              have h1 : rank ndx.negative ≤ ax := rank_le_of_childLt hltnx
              have h2 : rank ndy.negative ≤ ay := rank_le_of_childLt hltny
              have hrx : rank (NodeRef.addr ax) = ax + 1 := rfl
              have hry : rank (NodeRef.addr ay) = ay + 1 := rfl
              rw [hrx, hry] at hn
              by_cases hd1 : ndx.depth > ndy.depth
              · have hd2 : ¬(ndy.depth > ndx.depth) := by omega
                rw [if_pos hd1, if_neg hd2, hrx]
                omega
              · rw [if_neg hd1]
                by_cases hd2 : ndy.depth > ndx.depth
                · rw [if_pos hd2, hry]
                  omega
                · rw [if_neg hd2]
                  omega
            have hsumR :
                rank (if ndx.depth > ndy.depth then NodeRef.addr ax else ndx.positive) +
                rank (if ndy.depth > ndx.depth then NodeRef.addr ay else ndy.positive) < n := by
              have h1 : rank ndx.positive ≤ ax := rank_le_of_childLt hltpx
              have h2 : rank ndy.positive ≤ ay := rank_le_of_childLt hltpy
              have hrx : rank (NodeRef.addr ax) = ax + 1 := rfl
              have hry : rank (NodeRef.addr ay) = ay + 1 := rfl
              rw [hrx, hry] at hn
              by_cases hd1 : ndx.depth > ndy.depth
              · have hd2 : ¬(ndy.depth > ndx.depth) := by omega
                rw [if_pos hd1, if_neg hd2, hrx]
                omega
              · rw [if_neg hd1]
                by_cases hd2 : ndy.depth > ndx.depth
                · rw [if_pos hd2, hry]
                  omega
                · rw [if_neg hd2]
                  omega
            obtain ⟨⟨rl, c1, w1⟩, h1⟩ := ih hsumL hop hinv hwxl hwyl hc
            obtain ⟨st1, hinv1, hext1, hc1, hwrl, htoprl, hdenrl⟩ :=
              join_ok n h1 hop hinv hwxl hwyl hc
            have hwxr1 := hext1.wf hinv.get hinv1.get hwxr
            have hwyr1 := hext1.wf hinv.get hinv1.get hwyr
            obtain ⟨⟨rr, c2, w2⟩, h2⟩ := ih hsumR hop hinv1 hwxr1 hwyr1 hc1
            obtain ⟨st2, hinv2, hext2, hc2, hwrr, htoprr, hdenrr⟩ :=
              join_ok n h2 hop hinv1 hwxr1 hwyr1 hc1
            simp only [h1, h2]
            by_cases hrl : rl = rr
            · subst hrl
              simp only [emplace_same]
              exact ⟨_, rfl⟩
            · have hwrl2 : Wf w2 st2 rl :=
                hext2.wf hinv1.get hinv2.get hwrl
              have htoprl2 : topGt w2 (min ndx.depth ndy.depth) rl :=
                topGt_mono hext2.heap (htoprl _ htopxl htopyl)
              have htoprr2 : topGt w2 (min ndx.depth ndy.depth) rr :=
                htoprr _ (topGt_mono hext1.heap htopxr)
                  (topGt_mono hext1.heap htopyr)
              obtain ⟨a', w3, st3, heq3, _, _, _, _, _⟩ :=
                emplace_ok hinv2 hrl hwrl2 hwrr htoprl2 htoprr2
              simp only [heq3]
              exact ⟨_, rfl⟩

/-- The public pairwise `join` overload (fresh cache) succeeds on
well-formed session operands and returns their correct combination. -/
theorem pairJoin_ok {w : World} {si : Nat} {st : Store}
    {ident antident x y : NodeRef} {op : Bool → Bool → Bool}
    (hop : OpPair ident antident op) (hinv : SessionInv w si st)
    (hwx : Wf w st x) (hwy : Wf w st y) :
    ∃ res c' w' st', pairJoin w ident antident x y = some (res, c', w') ∧
      SessionInv w' si st' ∧ ExtendsAt si w w' ∧ Wf w' st' res ∧
      (∀ d, topGt w d x → topGt w d y → topGt w' d res) ∧
      (∀ σ bx b2, den w x σ = some bx → den w y σ = some b2 →
        den w' res σ = some (op bx b2)) := by
  obtain ⟨⟨res, c', w'⟩, hrun⟩ :=
    join_total (rank x + rank y + 1) (by omega) hop hinv hwx hwy
      (JCacheOk_nil w st op)
  obtain ⟨st', hinv', hext, _, hwres, htop, hden⟩ :=
    join_ok _ hrun hop hinv hwx hwy (JCacheOk_nil w st op)
  exact ⟨res, c', w', st', hrun, hinv', hext, hwres, htop, hden⟩

/-! ## Canonicity

Within one session, the store invariants (reduced, ordered, hash-consed)
force the classical uniqueness property of reduced ordered decision
diagrams: equal denotations imply identical references. -/

/-- A well-formed diagram denoting a constant function is the matching
terminal. -/
theorem den_const_eq_terminal {w : World} {st : Store} :
    ∀ (n : Nat) {r : NodeRef} {v : Bool}, rank r ≤ n → Wf w st r →
    (∀ σ, den w r σ = some v) →
    r = (if v then .ONE else .ZERO) := by
  intro n
  induction n with
  | zero =>
    intro r v hr hwf hden
    cases r with
    | ZERO =>
      obtain rfl : false = v := Option.some.inj (hden (fun _ => false))
      rfl
    | ONE =>
      obtain rfl : true = v := Option.some.inj (hden (fun _ => false))
      rfl
    | addr a => simp [rank] at hr
  | succ n ih =>
    intro r v hr hwf hden
    cases r with
    | ZERO =>
      obtain rfl : false = v := Option.some.inj (hden (fun _ => false))
      rfl
    | ONE =>
      obtain rfl : true = v := Option.some.inj (hden (fun _ => false))
      rfl
    | addr a =>
      obtain ⟨nd, hheap, hstore, hred, hltn, hltp, hgtn, hgtp, hwfn, hwfp⟩ :=
        wf_addr_elim hwf
      have ha : a ≤ n := by simp only [rank] at hr; omega
      have hbranch : ∀ (v' : Bool) (child : NodeRef), Wf w st child →
          topGt w nd.depth child →
          child = (if v' then nd.positive else nd.negative) →
          ∀ σ, den w child σ = some v := by
        intro v' child hwfc hgtc hsel σ
        have hagree : ∀ i, nd.depth + 1 ≤ i →
            σ i = (fun j => if j = nd.depth then v' else σ j) i := by
          intro i hi
          simp only []
          rw [if_neg (by omega)]
        have h1 : den w child σ =
            den w child (fun j => if j = nd.depth then v' else σ j) :=
          den_indep hwfc (nd.depth + 1) (topGe_of_topGt hgtc) hagree
        rw [h1, hsel]
        have hstep := den_step
          (σ := fun j => if j = nd.depth then v' else σ j)
          hheap hltn hltp hwfn hwfp
        have hv' : (fun j => if j = nd.depth then v' else σ j) nd.depth = v' := by
          simp
        rw [hv'] at hstep
        rw [← hstep]
        exact hden _
      have hposT : nd.positive = (if v then NodeRef.ONE else NodeRef.ZERO) :=
        ih (le_trans (rank_le_of_childLt hltp) ha) hwfp
          (hbranch true nd.positive hwfp hgtp (by simp))
      have hnegT : nd.negative = (if v then NodeRef.ONE else NodeRef.ZERO) :=
        ih (le_trans (rank_le_of_childLt hltn) ha) hwfn
          (hbranch false nd.negative hwfn hgtn (by simp))
      exact (hred (hnegT.trans hposT.symm)).elim

theorem node_ext {n₁ n₂ : Node} (h1 : n₁.depth = n₂.depth)
    (h2 : n₁.negative = n₂.negative) (h3 : n₁.positive = n₂.positive) :
    n₁ = n₂ := by
  cases n₁
  cases n₂
  simp_all

/-- Evaluating a node at an assignment with its decision variable forced
to `v'` selects the matching branch. -/
theorem den_forced {w : World} {st : Store} {a : Nat} {nd : Node}
    {σ : Nat → Bool} (v' : Bool)
    (hheap : lookupA a w.heap = some nd)
    (hltn : childLt a nd.negative) (hltp : childLt a nd.positive)
    (hwfn : Wf w st nd.negative) (hwfp : Wf w st nd.positive)
    (hgtn : topGt w nd.depth nd.negative) (hgtp : topGt w nd.depth nd.positive) :
    den w (if v' then nd.positive else nd.negative) σ =
      den w (.addr a) (fun j => if j = nd.depth then v' else σ j) := by
  have hagree : ∀ i, nd.depth + 1 ≤ i →
      σ i = (fun j => if j = nd.depth then v' else σ j) i := by
    intro i hi
    simp only []
    rw [if_neg (by omega)]
  have hstep := den_step (σ := fun j => if j = nd.depth then v' else σ j)
    hheap hltn hltp hwfn hwfp
  have hv' : (fun j => if j = nd.depth then v' else σ j) nd.depth = v' := by
    simp
  rw [hv'] at hstep
  have hind : den w (if v' then nd.positive else nd.negative) σ =
      den w (if v' then nd.positive else nd.negative)
        (fun j => if j = nd.depth then v' else σ j) := by
    cases v'
    · exact den_indep hwfn (nd.depth + 1) (topGe_of_topGt hgtn) hagree
    · exact den_indep hwfp (nd.depth + 1) (topGe_of_topGt hgtp) hagree
  exact hind.trans hstep.symm

/-- Canonicity within one session: two well-formed diagrams denoting the
same boolean function are the identical reference. -/
theorem canonical_unique {w : World} {st : Store} :
    ∀ (n : Nat) {x y : NodeRef}, rank x ≤ n → rank y ≤ n →
    Wf w st x → Wf w st y → (∀ σ, den w x σ = den w y σ) → x = y := by
  intro n
  induction n with
  | zero =>
    intro x y hrx hry hwx hwy hden
    cases x with
    | ZERO =>
      cases y with
      | ZERO => rfl
      | ONE => exact absurd (hden (fun _ => false)) (by simp [den, denF])
      | addr b => simp [rank] at hry
    | ONE =>
      cases y with
      | ZERO => exact absurd (hden (fun _ => false)) (by simp [den, denF])
      | ONE => rfl
      | addr b => simp [rank] at hry
    | addr a => simp [rank] at hrx
  | succ n ih =>
    intro x y hrx hry hwx hwy hden
    cases x with
    | ZERO =>
      exact (den_const_eq_terminal (n + 1) hry hwy
        (fun σ => (hden σ).symm)).symm
    | ONE =>
      exact (den_const_eq_terminal (n + 1) hry hwy
        (fun σ => (hden σ).symm)).symm
    | addr ax =>
      cases y with
      | ZERO =>
        exact den_const_eq_terminal (n + 1) hrx hwx (fun σ => hden σ)
      | ONE =>
        exact den_const_eq_terminal (n + 1) hrx hwx (fun σ => hden σ)
      | addr ay =>
        obtain ⟨ndx, hheapx, hstox, hredx, hltnx, hltpx, hgtnx, hgtpx,
          hwfnx, hwfpx⟩ := wf_addr_elim hwx
        obtain ⟨ndy, hheapy, hstoy, hredy, hltny, hltpy, hgtny, hgtpy,
          hwfny, hwfpy⟩ := wf_addr_elim hwy
        have hax : ax ≤ n := by simp only [rank] at hrx; omega
        have hay : ay ≤ n := by simp only [rank] at hry; omega
        rcases Nat.lt_trichotomy ndx.depth ndy.depth with hd | hd | hd
        · -- x decides earlier than everything in y: x must be redundant
          exfalso
          apply hredx
          refine ih (le_trans (rank_le_of_childLt hltnx) hax)
            (le_trans (rank_le_of_childLt hltpx) hax) hwfnx hwfpx ?_
          intro σ
          have hkey : ∀ v' : Bool,
              den w (if v' then ndx.positive else ndx.negative) σ =
                den w (.addr ay) σ := by
            intro v'
            rw [den_forced v' hheapx hltnx hltpx hwfnx hwfpx hgtnx hgtpx]
            rw [hden (fun j => if j = ndx.depth then v' else σ j)]
            refine (den_indep hwy (ndx.depth + 1)
              ⟨ndy, hheapy, by omega⟩ ?_).symm
            intro i hi
            exact (if_neg (by omega : ¬ i = ndx.depth)).symm
          have h0 := hkey false
          have h1 := hkey true
          simp only [Bool.false_eq_true, if_false, if_true] at h0 h1
          rw [h0, h1]
        · -- equal depths: the two nodes have field-equal records
          have hneg : ndx.negative = ndy.negative := by
            refine ih (le_trans (rank_le_of_childLt hltnx) hax)
              (le_trans (rank_le_of_childLt hltny) hay) hwfnx hwfny ?_
            intro σ
            have hx := den_forced (σ := σ) false hheapx hltnx hltpx
              hwfnx hwfpx hgtnx hgtpx
            have hy := den_forced (σ := σ) false hheapy hltny hltpy
              hwfny hwfpy hgtny hgtpy
            simp only [Bool.false_eq_true, if_false] at hx hy
            rw [hx, hy, hd]
            exact hden _
          have hpos : ndx.positive = ndy.positive := by
            refine ih (le_trans (rank_le_of_childLt hltpx) hax)
              (le_trans (rank_le_of_childLt hltpy) hay) hwfpx hwfpy ?_
            intro σ
            have hx := den_forced (σ := σ) true hheapx hltnx hltpx
              hwfnx hwfpx hgtnx hgtpx
            have hy := den_forced (σ := σ) true hheapy hltny hltpy
              hwfny hwfpy hgtny hgtpy
            simp only [if_true] at hx hy
            rw [hx, hy, hd]
            exact hden _
          have hnode : ndx = ndy := node_ext hd hneg hpos
          rw [hnode] at hstox
          rw [hstox] at hstoy
          exact congrArg NodeRef.addr (Option.some.inj hstoy)
        · -- y decides earlier than everything in x: y must be redundant
          exfalso
          apply hredy
          refine ih (le_trans (rank_le_of_childLt hltny) hay)
            (le_trans (rank_le_of_childLt hltpy) hay) hwfny hwfpy ?_
          intro σ
          have hkey : ∀ v' : Bool,
              den w (if v' then ndy.positive else ndy.negative) σ =
                den w (.addr ax) σ := by
            intro v'
            rw [den_forced v' hheapy hltny hltpy hwfny hwfpy hgtny hgtpy]
            rw [← hden (fun j => if j = ndy.depth then v' else σ j)]
            refine (den_indep hwx (ndy.depth + 1)
              ⟨ndx, hheapx, by omega⟩ ?_).symm
            intro i hi
            exact (if_neg (by omega : ¬ i = ndy.depth)).symm
          have h0 := hkey false
          have h1 := hkey true
          simp only [Bool.false_eq_true, if_false, if_true] at h0 h1
          rw [h0, h1]

/-! ## Further store lemmas -/

/-- A value already interned in the bound store is returned at its
existing address, with the world untouched. -/
theorem emplace_hit {w : World} {si : Nat} {st : Store} {d : Nat}
    {l r : NodeRef} {a : Nat}
    (hb : w.bound = some si) (hget : w.stores[si]? = some st)
    (hstore : lookupNode ⟨d, l, r⟩ st = some a) (hne : l ≠ r) :
    emplace w d l r = some (.addr a, w) := by
  rw [emplace, if_neg hne, hb]
  simp only [hget, hstore]


theorem SessionInv.toStoreInv {w : World} {si : Nat} {st : Store}
    (h : SessionInv w si st) : StoreInv w si st :=
  ⟨h.bound, h.get, h.nextB, fun nd a hna => (h.swf nd a hna).1⟩

/-- A successful non-degenerate `emplace` returns an address holding
exactly the requested record, and preserves the light store
invariant. -/
theorem emplace_store {w w' : World} {si : Nat} {st : Store} {d : Nat}
    {l r res : NodeRef} (hinv : StoreInv w si st) (hne : l ≠ r)
    (h : emplace w d l r = some (res, w')) :
    ∃ a st', res = .addr a ∧ lookupA a w'.heap = some ⟨d, l, r⟩ ∧
      lookupNode ⟨d, l, r⟩ st' = some a ∧ StoreInv w' si st' ∧
      (∀ b nd, lookupA b w.heap = some nd → lookupA b w'.heap = some nd) := by
  rw [emplace, if_neg hne, hinv.bound] at h
  simp only [hinv.get] at h
  cases hfind : lookupNode ⟨d, l, r⟩ st with
  | some a =>
    simp only [hfind, Option.some.injEq, Prod.mk.injEq] at h
    obtain ⟨rfl, rfl⟩ := h
    exact ⟨a, st, rfl, hinv.shc _ _ hfind, hfind, hinv, fun _ _ hb => hb⟩
  | none =>
    simp only [hfind, Option.some.injEq, Prod.mk.injEq] at h
    obtain ⟨rfl, rfl⟩ := h
    have hh : ∀ b nd, lookupA b w.heap = some nd →
        lookupA b ((w.next, Node.mk d l r) :: w.heap) = some nd := by
      intro b nd hb
      have hlt : b < w.next := hinv.nextB b nd hb
      simp only [lookupA]
      rw [if_neg (by omega)]
      exact hb
    have hlen : si < w.stores.length := (List.getElem?_eq_some_iff.mp hinv.get).1
    refine ⟨w.next, (⟨d, l, r⟩, w.next) :: st, rfl, by simp [lookupA],
      by simp [lookupNode], ?_, hh⟩
    refine ⟨rfl, ?_, ?_, ?_⟩
    · show (w.stores.set si _)[si]? = _
      rw [List.getElem?_set_self (by simpa using hlen)]
    · intro b nd hb
      show b < w.next + 1
      by_cases hbe : w.next = b
      · omega
      · have hb' : lookupA b w.heap = some nd := by
          revert hb
          show lookupA b ((w.next, Node.mk d l r) :: w.heap) = some nd → _
          simp only [lookupA]
          rw [if_neg hbe]
          exact id
        have := hinv.nextB b nd hb'
        omega
    · intro nd a hna
      by_cases hnd : (⟨d, l, r⟩ : Node) = nd
      · subst hnd
        have hlook : lookupNode (⟨d, l, r⟩ : Node)
            ((⟨d, l, r⟩, w.next) :: st) = some w.next := by
          simp [lookupNode]
        rw [hlook] at hna
        obtain rfl := Option.some.inj hna
        simp [lookupA]
      · have hna' : lookupNode nd st = some a := by
          revert hna
          simp only [lookupNode]
          rw [if_neg hnd]
          exact id
        exact hh a nd (hinv.shc nd a hna')

/-- `emplace` is total whenever a valid store is bound. -/
theorem emplace_total {w : World} {si : Nat} {st : Store}
    (hb : w.bound = some si) (hget : w.stores[si]? = some st)
    (d : Nat) (l r : NodeRef) : ∃ out, emplace w d l r = some out := by
  rw [emplace]
  by_cases hne : l = r
  · rw [if_pos hne]
    exact ⟨_, rfl⟩
  · rw [if_neg hne, hb]
    simp only [hget]
    cases hfind : lookupNode ⟨d, l, r⟩ st with
    | some a => exact ⟨_, rfl⟩
    | none => exact ⟨_, rfl⟩

/-- With no store bound, a non-degenerate `emplace` is the fatal
case. -/
theorem emplace_unbound {w : World} {d : Nat} {l r : NodeRef}
    (hb : w.bound = none) (hne : l ≠ r) : emplace w d l r = none := by
  rw [emplace, if_neg hne, hb]

/-! ## The reduction invariant over whole worlds -/


theorem emplace_reduced {w w' : World} {d : Nat} {l r res : NodeRef}
    (h : emplace w d l r = some (res, w')) (hred : StoresReduced w) :
    StoresReduced w' := by
  rw [emplace] at h
  by_cases hne : l = r
  · rw [if_pos hne] at h
    obtain ⟨-, rfl⟩ : res = l ∧ w' = w := by
      simpa [Prod.ext_iff] using h.symm
    exact hred
  · rw [if_neg hne] at h
    cases hb : w.bound with
    | none => rw [hb] at h; exact Option.noConfusion h
    | some si =>
      rw [hb] at h
      cases hget : w.stores[si]? with
      | none => simp only [hget] at h; exact Option.noConfusion h
      | some st =>
        simp only [hget] at h
        cases hfind : lookupNode ⟨d, l, r⟩ st with
        | some a =>
          simp only [hfind, Option.some.injEq, Prod.mk.injEq] at h
          obtain ⟨-, rfl⟩ := h
          exact hred
        | none =>
          simp only [hfind, Option.some.injEq, Prod.mk.injEq] at h
          obtain ⟨-, rfl⟩ := h
          intro st0 hst0 p hp
          rcases List.mem_or_eq_of_mem_set hst0 with hmem | rfl
          · exact hred st0 hmem p hp
          · rcases List.mem_cons.mp hp with rfl | hmem
            · exact hne
            · have hst : st ∈ w.stores := by
                obtain ⟨hlt, hgetx⟩ := List.getElem?_eq_some_iff.mp hget
                exact hgetx ▸ List.getElem_mem hlt
              exact hred st hst p hmem

theorem literal_reduced {w w' : World} {i : Nat} {sign : Bool}
    {res : NodeRef} (h : literal w i sign = some (res, w'))
    (hred : StoresReduced w) : StoresReduced w' :=
  emplace_reduced h hred

theorem invert_reduced : ∀ (fuel : Nat) {w w' : World} {c c' : ICache}
    {r res : NodeRef}, invert fuel w c r = some (res, c', w') →
    StoresReduced w → StoresReduced w' := by
  intro fuel
  induction fuel with
  | zero =>
    intro w w' c c' r res h hred
    cases r with
    | ZERO =>
      simp only [invert, Option.some.injEq, Prod.mk.injEq] at h
      exact h.2.2 ▸ hred
    | ONE =>
      simp only [invert, Option.some.injEq, Prod.mk.injEq] at h
      exact h.2.2 ▸ hred
    | addr a =>
      rw [invert] at h
      cases hhit : lookupRef (.addr a) c with
      | some v =>
        simp only [hhit, Option.some.injEq, Prod.mk.injEq] at h
        exact h.2.2 ▸ hred
      | none =>
        rw [hhit] at h
        exact absurd h (by simp)
  | succ fuel ih =>
    intro w w' c c' r res h hred
    cases r with
    | ZERO =>
      simp only [invert, Option.some.injEq, Prod.mk.injEq] at h
      exact h.2.2 ▸ hred
    | ONE =>
      simp only [invert, Option.some.injEq, Prod.mk.injEq] at h
      exact h.2.2 ▸ hred
    | addr a =>
      rw [invert] at h
      cases hhit : lookupRef (.addr a) c with
      | some v =>
        simp only [hhit, Option.some.injEq, Prod.mk.injEq] at h
        exact h.2.2 ▸ hred
      | none =>
        simp only [hhit] at h
        cases hheap : lookupA a w.heap with
        | none => simp only [hheap] at h; exact Option.noConfusion h
        | some nd =>
          simp only [hheap] at h
          cases h1 : invert fuel w c nd.negative with
          | none => simp only [h1] at h; exact Option.noConfusion h
          | some t1 =>
            obtain ⟨ln, c1, w1⟩ := t1
            simp only [h1] at h
            cases h2 : invert fuel w1 c1 nd.positive with
            | none => simp only [h2] at h; exact Option.noConfusion h
            | some t2 =>
              obtain ⟨lp, c2, w2⟩ := t2
              simp only [h2] at h
              cases h3 : emplace w2 nd.depth ln lp with
              | none => simp only [h3] at h; exact Option.noConfusion h
              | some t3 =>
                obtain ⟨res0, w3⟩ := t3
                simp only [h3, Option.some.injEq, Prod.mk.injEq] at h
                exact h.2.2 ▸ emplace_reduced h3 (ih h2 (ih h1 hred))

theorem join_reduced : ∀ (fuel : Nat) {w w' : World} {c c' : JCache}
    {ident antident x y res : NodeRef},
    join fuel w c ident antident x y = some (res, c', w') →
    StoresReduced w → StoresReduced w' := by
  intro fuel
  induction fuel with
  | zero =>
    intro w w' c c' ident antident x y res h hred
    rw [join] at h
    by_cases hxi : x = ident
    · rw [if_pos hxi] at h
      simp only [Option.some.injEq, Prod.mk.injEq] at h
      exact h.2.2 ▸ hred
    · rw [if_neg hxi] at h
      by_cases hyi : y = ident
      · rw [if_pos hyi] at h
        simp only [Option.some.injEq, Prod.mk.injEq] at h
        exact h.2.2 ▸ hred
      · rw [if_neg hyi] at h
        by_cases hxa : x = antident ∨ y = antident
        · rw [if_pos hxa] at h
          simp only [Option.some.injEq, Prod.mk.injEq] at h
          exact h.2.2 ▸ hred
        · rw [if_neg hxa] at h
          exact Option.noConfusion h
  | succ fuel ih =>
    intro w w' c c' ident antident x y res h hred
    rw [join] at h
    by_cases hxi : x = ident
    · rw [if_pos hxi] at h
      simp only [Option.some.injEq, Prod.mk.injEq] at h
      exact h.2.2 ▸ hred
    · rw [if_neg hxi] at h
      by_cases hyi : y = ident
      · rw [if_pos hyi] at h
        simp only [Option.some.injEq, Prod.mk.injEq] at h
        exact h.2.2 ▸ hred
      · rw [if_neg hyi] at h
        by_cases hxa : x = antident ∨ y = antident
        · rw [if_pos hxa] at h
          simp only [Option.some.injEq, Prod.mk.injEq] at h
          exact h.2.2 ▸ hred
        · rw [if_neg hxa] at h
          cases hdx : w.deref x with
          | none => simp only [hdx] at h; exact Option.noConfusion h
          | some nx =>
            cases hdy : w.deref y with
            | none => simp only [hdx, hdy] at h; exact Option.noConfusion h
            | some ny =>
              simp only [hdx, hdy] at h
              cases hhit : lookupKey (pairKey x y) c with
              | some v =>
                simp only [hhit, Option.some.injEq, Prod.mk.injEq] at h
                exact h.2.2 ▸ hred
              | none =>
                simp only [hhit] at h
                cases h1 : join fuel w c ident antident
                    (if nx.depth > ny.depth then x else nx.negative)
                    (if ny.depth > nx.depth then y else ny.negative) with
                | none => simp only [h1] at h; exact Option.noConfusion h
                | some t1 =>
                  obtain ⟨rl, c1, w1⟩ := t1
                  simp only [h1] at h
                  cases h2 : join fuel w1 c1 ident antident
                      (if nx.depth > ny.depth then x else nx.positive)
                      (if ny.depth > nx.depth then y else ny.positive) with
                  | none => simp only [h2] at h; exact Option.noConfusion h
                  | some t2 =>
                    obtain ⟨rr, c2, w2⟩ := t2
                    simp only [h2] at h
                    cases h3 : emplace w2 (min nx.depth ny.depth) rl rr with
                    | none => simp only [h3] at h; exact Option.noConfusion h
                    | some t3 =>
                      obtain ⟨res0, w3⟩ := t3
                      simp only [h3, Option.some.injEq, Prod.mk.injEq] at h
                      exact h.2.2 ▸ emplace_reduced h3 (ih h2 (ih h1 hred))

/-! ## The variadic fold -/

theorem joinN_total : ∀ (rest : List NodeRef) {w : World} {si : Nat}
    {st : Store} {ident antident x y : NodeRef} {op : Bool → Bool → Bool},
    OpPair ident antident op → SessionInv w si st →
    Wf w st x → Wf w st y → (∀ z ∈ rest, Wf w st z) →
    ∃ res w' st', joinN w ident antident x y rest = some (res, w') ∧
      SessionInv w' si st' ∧ ExtendsAt si w w' ∧ Wf w' st' res := by
  intro rest
  induction rest with
  | nil =>
    intro w si st ident antident x y op hop hinv hwx hwy _
    obtain ⟨res, c', w', st', hrun, hinv', hext, hwres, _, _⟩ :=
      pairJoin_ok hop hinv hwx hwy
    refine ⟨res, w', st', ?_, hinv', hext, hwres⟩
    rw [joinN]
    simp only [hrun]
  | cons z rest ih =>
    intro w si st ident antident x y op hop hinv hwx hwy hrest
    obtain ⟨j, c', w', st', hrun, hinv', hext, hwj, _, _⟩ :=
      pairJoin_ok hop hinv hwx hwy
    have hwz : Wf w' st' z :=
      hext.wf hinv.get hinv'.get (hrest z (List.mem_cons_self z rest))
    have hrest' : ∀ u ∈ rest, Wf w' st' u := fun u hu =>
      hext.wf hinv.get hinv'.get (hrest u (List.mem_cons_of_mem z hu))
    obtain ⟨res, w'', st'', hrun2, hinv'', hext2, hwres⟩ :=
      ih hop hinv' hwj hwz hrest'
    refine ⟨res, w'', st'', ?_, hinv'', hext.trans hext2, hwres⟩
    rw [joinN]
    simp only [hrun]
    exact hrun2


theorem joinN_eq_joinNC : ∀ (rest : List NodeRef) (w : World)
    (ident antident x y : NodeRef),
    joinN w ident antident x y rest =
      (joinNC w ident antident x y rest).map (fun o => (o.1, o.2.2)) := by
  intro rest
  induction rest with
  | nil =>
    intro w ident antident x y
    rw [joinN, joinNC]
    cases h : pairJoin w ident antident x y with
    | none => rfl
    | some t => obtain ⟨j, c, w'⟩ := t; rfl
  | cons z rest ih =>
    intro w ident antident x y
    rw [joinN, joinNC]
    cases h : pairJoin w ident antident x y with
    | none => rfl
    | some t =>
      obtain ⟨j, c, w'⟩ := t
      exact ih w' ident antident j z


/-- The variadic `join` is the left fold of fresh-cache pairwise joins:
combine the first two operands, then fold the junction through the
remaining operands one at a time. -/
theorem joinN_foldPairs : ∀ (rest : List NodeRef) (w : World)
    (ident antident x y : NodeRef),
    joinN w ident antident x y rest =
      match pairJoin w ident antident x y with
      | none => none
      | some (j, _, w') => foldPairs w' ident antident j rest := by
  intro rest
  induction rest with
  | nil =>
    intro w ident antident x y
    rw [joinN]
    cases h : pairJoin w ident antident x y with
    | none => rfl
    | some t => obtain ⟨j, c, w'⟩ := t; rfl
  | cons z rest ih =>
    intro w ident antident x y
    rw [joinN]
    cases h : pairJoin w ident antident x y with
    | none => rfl
    | some t =>
      obtain ⟨j, c, w'⟩ := t
      show joinN w' ident antident j z rest = _
      rw [ih w' ident antident j z]
      rfl

/-! ## A concrete three-literal session (used to instantiate the
hypotheses of the general theorems at explicit inputs) -/


theorem wf_Wabc_0 : Wf Wabc stAbc (.addr 0) :=
  .node 0 ⟨0, .ZERO, .ONE⟩ rfl rfl (by decide) trivial trivial
    trivial trivial .zero .one

theorem wf_Wabc_1 : Wf Wabc stAbc (.addr 1) :=
  .node 1 ⟨1, .ZERO, .ONE⟩ rfl rfl (by decide) trivial trivial
    trivial trivial .zero .one

theorem wf_Wabc_2 : Wf Wabc stAbc (.addr 2) :=
  .node 2 ⟨2, .ZERO, .ONE⟩ rfl rfl (by decide) trivial trivial
    trivial trivial .zero .one

theorem lookupA_mem_keys {β : Type} {k : Nat} {l : List (Nat × β)} {b : β}
    (h : lookupA k l = some b) : k ∈ l.map Prod.fst := by
  induction l with
  | nil => simp [lookupA] at h
  | cons p t ih =>
    obtain ⟨a, v⟩ := p
    simp only [lookupA] at h
    by_cases ha : a = k
    · subst ha
      simp
    · rw [if_neg ha] at h
      simp [ih h]

theorem sessionInv_Wabc : SessionInv Wabc 0 stAbc := by
  refine ⟨rfl, rfl, ?_, ?_⟩
  · intro a nd h
    have hmem := lookupA_mem_keys h
    simp only [Wabc, List.map, List.mem_cons, List.not_mem_nil,
      or_false] at hmem
    show a < 3
    omega
  · intro nd a h
    simp only [stAbc, lookupNode] at h
    by_cases e2 : (⟨2, .ZERO, .ONE⟩ : Node) = nd
    · rw [if_pos e2] at h
      obtain rfl := Option.some.inj h
      exact e2 ▸ ⟨rfl, wf_Wabc_2⟩
    · rw [if_neg e2] at h
      by_cases e1 : (⟨1, .ZERO, .ONE⟩ : Node) = nd
      · rw [if_pos e1] at h
        obtain rfl := Option.some.inj h
        exact e1 ▸ ⟨rfl, wf_Wabc_1⟩
      · rw [if_neg e1] at h
        by_cases e0 : (⟨0, .ZERO, .ONE⟩ : Node) = nd
        · rw [if_pos e0] at h
          obtain rfl := Option.some.inj h
          exact e0 ▸ ⟨rfl, wf_Wabc_0⟩
        · rw [if_neg e0] at h
          exact Option.noConfusion h

/-- `emplace` touches no store other than the bound one. -/
theorem emplace_frame {w w' : World} {si : Nat} {d : Nat} {l r res : NodeRef}
    (hb : w.bound = some si) (h : emplace w d l r = some (res, w')) :
    ∀ sj, sj ≠ si → w'.stores[sj]? = w.stores[sj]? := by
  intro sj hj
  rw [emplace] at h
  by_cases hne : l = r
  · rw [if_pos hne] at h
    obtain ⟨-, rfl⟩ : res = l ∧ w' = w := by
      simpa [Prod.ext_iff] using h.symm
    rfl
  · rw [if_neg hne, hb] at h
    cases hget : w.stores[si]? with
    | none => simp only [hget] at h; exact Option.noConfusion h
    | some st =>
      simp only [hget] at h
      cases hfind : lookupNode ⟨d, l, r⟩ st with
      | some a =>
        simp only [hfind, Option.some.injEq, Prod.mk.injEq] at h
        obtain ⟨-, rfl⟩ := h
        rfl
      | none =>
        simp only [hfind, Option.some.injEq, Prod.mk.injEq] at h
        obtain ⟨-, rfl⟩ := h
        exact List.getElem?_set_ne (fun hh => hj hh.symm)

/-! ## The claims -/

/-- C1: for all nodes `x` and `y` built in the currently bound session,
`conjoin(x, y)` (join instantiated with identity `ONE` and annihilator
`ZERO`) returns a diagram denoting the boolean conjunction of the
functions denoted by `x` and `y`, and `disjoin(x, y)` (join with
identity `ZERO` and annihilator `ONE`) returns a diagram denoting their
disjunction, under every assignment of the variables — even when `x`
and `y` were built over different variable subsets (different
depths). -/
theorem C1_conjoin_disjoin_correct {w : World} {si : Nat} {st : Store}
    {x y : NodeRef} (hinv : SessionInv w si st)
    (hwx : Wf w st x) (hwy : Wf w st y) :
    (∃ r w', conjoin w x y [] = some (r, w') ∧
      ∀ σ bx b2, den w x σ = some bx → den w y σ = some b2 →
        den w' r σ = some (bx && b2)) ∧
    (∃ r w', disjoin w x y [] = some (r, w') ∧
      ∀ σ bx b2, den w x σ = some bx → den w y σ = some b2 →
        den w' r σ = some (bx || b2)) := by
  constructor
  · obtain ⟨res, c', w', st', hrun, hinv', hext, hwres, htop, hden⟩ :=
      pairJoin_ok (show OpPair .ONE .ZERO and from Or.inr ⟨rfl, rfl, rfl⟩)
        hinv hwx hwy
    refine ⟨res, w', ?_, fun σ bx b2 h1 h2 => hden σ bx b2 h1 h2⟩
    rw [conjoin, joinN]
    simp only [hrun]
  · obtain ⟨res, c', w', st', hrun, hinv', hext, hwres, htop, hden⟩ :=
      pairJoin_ok (show OpPair .ZERO .ONE or from Or.inl ⟨rfl, rfl, rfl⟩)
        hinv hwx hwy
    refine ⟨res, w', ?_, fun σ bx b2 h1 h2 => hden σ bx b2 h1 h2⟩
    rw [disjoin, joinN]
    simp only [hrun]

theorem C1_witness :
    SessionInv Wabc 0 stAbc ∧ Wf Wabc stAbc (.addr 0) ∧
    Wf Wabc stAbc (.addr 2) ∧
    ((∃ r w', conjoin Wabc (.addr 0) (.addr 2) [] = some (r, w') ∧
       ∀ σ bx b2, den Wabc (.addr 0) σ = some bx →
         den Wabc (.addr 2) σ = some b2 →
         den w' r σ = some (bx && b2)) ∧
     (∃ r w', disjoin Wabc (.addr 0) (.addr 2) [] = some (r, w') ∧
       ∀ σ bx b2, den Wabc (.addr 0) σ = some bx →
         den Wabc (.addr 2) σ = some b2 →
         den w' r σ = some (bx || b2))) :=
  ⟨sessionInv_Wabc, wf_Wabc_0, wf_Wabc_2,
    C1_conjoin_disjoin_correct sessionInv_Wabc wf_Wabc_0 wf_Wabc_2⟩

/-- C2 (amended): within one bound session, two `emplace` calls with
field-equal arguments return the identical reference; two calls with
differing fields whose children are distinct (the non-degenerate case
that actually interns a node) return distinct references; and two
session diagrams denote the same boolean function iff their references
are identical. -/
theorem C2_canonicalization {w : World} {si : Nat} {st : Store}
    (hinv : SessionInv w si st) :
    (∀ d l r res1 w1 res2 w2, emplace w d l r = some (res1, w1) →
       emplace w1 d l r = some (res2, w2) → res2 = res1) ∧
    (∀ d l r d' l' r' res1 w1 res2 w2, l ≠ r → l' ≠ r' →
       (d, l, r) ≠ (d', l', r') →
       emplace w d l r = some (res1, w1) →
       emplace w1 d' l' r' = some (res2, w2) → res1 ≠ res2) ∧
    (∀ x y, Wf w st x → Wf w st y →
       ((∀ σ, den w x σ = den w y σ) ↔ x = y)) := by
  refine ⟨?_, ?_, ?_⟩
  · intro d l r res1 w1 res2 w2 h1 h2
    by_cases hne : l = r
    · subst hne
      rw [emplace_same] at h1 h2
      simp only [Option.some.injEq, Prod.mk.injEq] at h1 h2
      rw [← h1.1, ← h2.1]
    · obtain ⟨a, st1, rfl, hheap1, hlook1, hinv1, hgrow1⟩ :=
        emplace_store hinv.toStoreInv hne h1
      rw [emplace_hit hinv1.bound hinv1.get hlook1 hne] at h2
      simp only [Option.some.injEq, Prod.mk.injEq] at h2
      exact h2.1.symm
  · intro d l r d' l' r' res1 w1 res2 w2 hne hne' hfields h1 h2
    obtain ⟨a1, st1, rfl, hheap1, hlook1, hinv1, hgrow1⟩ :=
      emplace_store hinv.toStoreInv hne h1
    obtain ⟨a2, st2, rfl, hheap2, hlook2, hinv2, hgrow2⟩ :=
      emplace_store hinv1 hne' h2
    intro hres
    obtain rfl : a1 = a2 := NodeRef.addr.inj hres
    have hheap1' : lookupA a1 w2.heap = some ⟨d, l, r⟩ :=
      hgrow2 a1 _ hheap1
    rw [hheap2] at hheap1'
    have := Option.some.inj hheap1'
    apply hfields
    rw [Node.mk.injEq] at this
    exact Prod.ext this.1.symm (Prod.ext this.2.1.symm this.2.2.symm)
  · intro x y hwx hwy
    constructor
    · intro hden
      exact canonical_unique (max (rank x) (rank y)) (le_max_left _ _)
        (le_max_right _ _) hwx hwy hden
    · rintro rfl
      intro σ
      rfl

/-- C2 counterexample: the reduction rule makes two `emplace` calls
with differing depth fields (equal children) return the same reference
`ZERO`, falsifying "a call with differing fields returns a distinct
reference" as universally stated. -/
theorem C2_counterexample :
    emplace Wabc 0 .ZERO .ZERO = some (.ZERO, Wabc) ∧
    emplace Wabc 1 .ZERO .ZERO = some (.ZERO, Wabc) ∧
    ((0 : Nat), NodeRef.ZERO, NodeRef.ZERO) ≠
      ((1 : Nat), NodeRef.ZERO, NodeRef.ZERO) :=
  ⟨rfl, rfl, by decide⟩

theorem C2_witness :
    SessionInv Wabc 0 stAbc ∧
    ((∀ d l r res1 w1 res2 w2, emplace Wabc d l r = some (res1, w1) →
        emplace w1 d l r = some (res2, w2) → res2 = res1) ∧
     (∀ d l r d' l' r' res1 w1 res2 w2, l ≠ r → l' ≠ r' →
        (d, l, r) ≠ (d', l', r') →
        emplace Wabc d l r = some (res1, w1) →
        emplace w1 d' l' r' = some (res2, w2) → res1 ≠ res2) ∧
     (∀ x y, Wf Wabc stAbc x → Wf Wabc stAbc y →
        ((∀ σ, den Wabc x σ = den Wabc y σ) ↔ x = y))) :=
  ⟨sessionInv_Wabc, C2_canonicalization sessionInv_Wabc⟩

/-- C3: for every depth `d` and child `c`, `emplace(d, c, c)` returns
`c` and inserts no node (the world is returned unchanged); and no store
ever holds a node with equal children — an invariant preserved by
`emplace` itself and by every construction primitive (`literal`,
`invert`, `join`). -/
theorem C3_reduction_invariant :
    (∀ (w : World) (d : Nat) (c : NodeRef), emplace w d c c = some (c, w)) ∧
    (∀ (w w' : World) (d : Nat) (l r res : NodeRef), StoresReduced w →
       emplace w d l r = some (res, w') → StoresReduced w') ∧
    (∀ (w w' : World) (i : Nat) (sign : Bool) (res : NodeRef),
       StoresReduced w → literal w i sign = some (res, w') →
       StoresReduced w') ∧
    (∀ (fuel : Nat) (w w' : World) (c c' : ICache) (r res : NodeRef),
       StoresReduced w → invert fuel w c r = some (res, c', w') →
       StoresReduced w') ∧
    (∀ (fuel : Nat) (w w' : World) (c c' : JCache)
       (ident antident x y res : NodeRef), StoresReduced w →
       join fuel w c ident antident x y = some (res, c', w') →
       StoresReduced w') :=
  ⟨emplace_same,
   fun _ _ _ _ _ _ hred h => emplace_reduced h hred,
   fun _ _ _ _ _ hred h => literal_reduced h hred,
   fun fuel _ _ _ _ _ _ hred h => invert_reduced fuel h hred,
   fun fuel _ _ _ _ _ _ _ _ _ hred h => join_reduced fuel h hred⟩

/-- C4: for all session diagrams `n`, inverting twice returns the very
same reference `n`; on the terminals, `invert(ZERO) == ONE` and
`invert(ONE) == ZERO` (with the world untouched). -/
theorem C4_invert_involution {w : World} {si : Nat} {st : Store}
    {n : NodeRef} (hinv : SessionInv w si st) (hwf : Wf w st n) :
    (∃ res w' w'', invertTop w n = some (res, w') ∧
       invertTop w' res = some (n, w'')) ∧
    invertTop w .ZERO = some (.ONE, w) ∧
    invertTop w .ONE = some (.ZERO, w) := by
  refine ⟨?_, rfl, rfl⟩
  obtain ⟨res, w', st', hrun1, hinv', hext1, hwres, htop1, hden1⟩ :=
    invertTop_ok hinv hwf
  obtain ⟨res2, w'', st'', hrun2, hinv'', hext2, hwres2, htop2, hden2⟩ :=
    invertTop_ok hinv' hwres
  have hwfn'' : Wf w'' st'' n :=
    (hext1.trans hext2).wf hinv.get hinv''.get hwf
  have hdeq : ∀ σ, den w'' res2 σ = den w'' n σ := by
    intro σ
    obtain ⟨b, hb⟩ := den_total hwf σ
    have hb' : den w' res σ = some (!b) := hden1 σ b hb
    have hb'' : den w'' res2 σ = some (!!b) := hden2 σ (!b) hb'
    rw [Bool.not_not] at hb''
    rw [hb'', den_mono_world (hext1.trans hext2).heap hb]
  obtain rfl : res2 = n :=
    canonical_unique (max (rank res2) (rank n)) (le_max_left _ _)
      (le_max_right _ _) hwres2 hwfn'' hdeq
  exact ⟨res, w', w'', hrun1, hrun2⟩

theorem C4_witness :
    SessionInv Wabc 0 stAbc ∧ Wf Wabc stAbc (.addr 0) ∧
    ((∃ res w' w'', invertTop Wabc (.addr 0) = some (res, w') ∧
        invertTop w' res = some (.addr 0, w'')) ∧
     invertTop Wabc .ZERO = some (.ONE, Wabc) ∧
     invertTop Wabc .ONE = some (.ZERO, Wabc)) :=
  ⟨sessionInv_Wabc, wf_Wabc_0,
    C4_invert_involution sessionInv_Wabc wf_Wabc_0⟩

/-- C5 (amended): a variadic join over operands `x, y, z, ...` is
computed by repeated pairwise left-folding — combine `x` and `y`, then
the junction with `z`, and so on — but each pairwise step constructs
its own fresh memoization cache; the steps of one top-level variadic
call do not share a cache (concretely, after folding three literals the
final step's cache holds no entry for the first step's operand
pair). -/
theorem C5_variadic_fold :
    (∀ (rest : List NodeRef) (w : World) (ident antident x y : NodeRef),
       joinN w ident antident x y rest =
         match pairJoin w ident antident x y with
         | none => none
         | some (j, _, w') => foldPairs w' ident antident j rest) ∧
    (joinNC Wabc .ONE .ZERO (.addr 0) (.addr 1) [(.addr 2)]).map
        (fun o => lookupKey (pairKey (.addr 0) (.addr 1)) o.2.1) =
      some none :=
  ⟨joinN_foldPairs, by decide⟩

/-- C5 counterexample: in the concrete three-literal session, the
code's variadic fold leaves the final pairwise step with a cache
holding no entry for the first step's operand pair, while the
shared-cache fold the spec describes retains that entry — the pairwise
steps do not share one cache. -/
theorem C5_counterexample :
    (joinNC Wabc .ONE .ZERO (.addr 0) (.addr 1) [(.addr 2)]).map
        (fun o => lookupKey (pairKey (.addr 0) (.addr 1)) o.2.1) =
      some none ∧
    (joinNShared Wabc [] .ONE .ZERO (.addr 0) (.addr 1) [(.addr 2)]).map
        (fun o => lookupKey (pairKey (.addr 0) (.addr 1)) o.2.1) =
      some (some (.addr 3)) :=
  ⟨by decide, by decide⟩

/-- C6: `literal(i, true)` returns the canonical node with depth `i`,
negative child `ZERO` and positive child `ONE`; `literal(i, false)`
returns the canonical node with depth `i`, negative child `ONE` and
positive child `ZERO`; and a repeated call with the same index and sign
under the same bound store returns the same reference (and leaves the
world unchanged). -/
theorem C6_literal_encoding {w : World} {si : Nat} {st : Store}
    (hinv : SessionInv w si st) (i : Nat) :
    (∃ a w', literal w i true = some (.addr a, w') ∧
       lookupA a w'.heap = some ⟨i, .ZERO, .ONE⟩ ∧
       literal w' i true = some (.addr a, w')) ∧
    (∃ a w', literal w i false = some (.addr a, w') ∧
       lookupA a w'.heap = some ⟨i, .ONE, .ZERO⟩ ∧
       literal w' i false = some (.addr a, w')) := by
  constructor
  · obtain ⟨a, w', st', heq, hinv', hext, hheap, hstore, hwf, hden⟩ :=
      literal_ok hinv i true
    refine ⟨a, w', heq, hheap, ?_⟩
    exact emplace_hit hinv'.bound hinv'.get hstore (by decide)
  · obtain ⟨a, w', st', heq, hinv', hext, hheap, hstore, hwf, hden⟩ :=
      literal_ok hinv i false
    refine ⟨a, w', heq, hheap, ?_⟩
    exact emplace_hit hinv'.bound hinv'.get hstore (by decide)

theorem C6_witness :
    SessionInv Wabc 0 stAbc ∧
    ((∃ a w', literal Wabc 4 true = some (.addr a, w') ∧
        lookupA a w'.heap = some ⟨4, .ZERO, .ONE⟩ ∧
        literal w' 4 true = some (.addr a, w')) ∧
     (∃ a w', literal Wabc 4 false = some (.addr a, w') ∧
        lookupA a w'.heap = some ⟨4, .ONE, .ZERO⟩ ∧
        literal w' 4 false = some (.addr a, w'))) :=
  ⟨sessionInv_Wabc, C6_literal_encoding sessionInv_Wabc 4⟩

/-- C7: for every node `n` and any world, `disjoin(n, ZERO) == n`,
`disjoin(n, ONE) == ONE`, `conjoin(n, ONE) == n` and
`conjoin(n, ZERO) == ZERO`, each returning the exact operand or
annihilator reference with the world untouched — the short-circuits
fire before any recursion or store access, so no binding is even
required. -/
theorem C7_identity_annihilator : ∀ (w : World) (n : NodeRef),
    disjoin w n .ZERO [] = some (n, w) ∧
    disjoin w n .ONE [] = some (.ONE, w) ∧
    conjoin w n .ONE [] = some (n, w) ∧
    conjoin w n .ZERO [] = some (.ZERO, w) := by
  intro w n
  cases n with
  | ZERO => exact ⟨rfl, rfl, rfl, rfl⟩
  | ONE => exact ⟨rfl, rfl, rfl, rfl⟩
  | addr a => exact ⟨rfl, rfl, rfl, rfl⟩

/-- C8: `bind` replaces the process-wide current target with the given
store (or none) and returns the previously bound target, changing
nothing else; a node created by `emplace` while store `si` is bound is
inserted into `si` and into no other store; and a value interned while
another store was bound (living at some address below the allocation
counter) is re-created as a separate canonical instance — at the fresh
address, distinct from the old reference — when the same fields are
emplaced under a store that lacks the value. -/
theorem C8_bind_and_isolation :
    (∀ (w : World) (s : Option Nat),
       bind w s = (w.bound, ⟨w.stores, s, w.next, w.heap⟩)) ∧
    (∀ (w w' : World) (si : Nat) (d : Nat) (l r res : NodeRef),
       w.bound = some si → emplace w d l r = some (res, w') →
       ∀ sj, sj ≠ si → w'.stores[sj]? = w.stores[sj]?) ∧
    (∀ (w : World) (si : Nat) (st : Store) (d : Nat) (l r : NodeRef)
       (a : Nat),
       w.bound = some si → w.stores[si]? = some st →
       lookupNode ⟨d, l, r⟩ st = none → l ≠ r → a < w.next →
       emplace w d l r =
         some (.addr w.next,
           ⟨w.stores.set si ((⟨d, l, r⟩, w.next) :: st), w.bound,
            w.next + 1, (w.next, ⟨d, l, r⟩) :: w.heap⟩) ∧
       NodeRef.addr w.next ≠ .addr a) := by
  refine ⟨fun w s => rfl,
    fun w w' si d l r res hb h => emplace_frame hb h, ?_⟩
  intro w si st d l r a hb hget hmiss hne ha
  constructor
  · rw [emplace, if_neg hne, hb]
    simp only [hget, hmiss]
  · intro he
    exact absurd (NodeRef.addr.inj he) (by omega)

/-- C9: with a valid store bound, every operation is total — `emplace`
and `literal` on any arguments, `invert` and the n-ary `conjoin` /
`disjoin` on well-formed session diagrams all succeed with a canonical
reference; the sole precondition failure is a construction call with no
store bound, which is the fatal case (no partial success). -/
theorem C9_total_or_fatal {w : World} {si : Nat} {st : Store}
    (hinv : SessionInv w si st) :
    (∀ d l r, ∃ out, emplace w d l r = some out) ∧
    (∀ i sign, ∃ out, literal w i sign = some out) ∧
    (∀ r, Wf w st r → ∃ out, invertTop w r = some out) ∧
    (∀ x y rest, Wf w st x → Wf w st y → (∀ z ∈ rest, Wf w st z) →
       (∃ out, conjoin w x y rest = some out) ∧
       (∃ out, disjoin w x y rest = some out)) ∧
    (∀ (w0 : World) (d : Nat) (l r : NodeRef), w0.bound = none → l ≠ r →
       emplace w0 d l r = none) := by
  refine ⟨emplace_total hinv.bound hinv.get, ?_, ?_, ?_, ?_⟩
  · intro i sign
    exact emplace_total hinv.bound hinv.get i _ _
  · intro r hwf
    obtain ⟨res, w', st', hrun, -⟩ := invertTop_ok hinv hwf
    exact ⟨_, hrun⟩
  · intro x y rest hwx hwy hrest
    constructor
    · obtain ⟨res, w', st', hrun, -⟩ :=
        joinN_total rest (Or.inr ⟨rfl, rfl, rfl⟩) hinv hwx hwy hrest
      exact ⟨_, hrun⟩
    · obtain ⟨res, w', st', hrun, -⟩ :=
        joinN_total rest (Or.inl ⟨rfl, rfl, rfl⟩) hinv hwx hwy hrest
      exact ⟨_, hrun⟩
  · intro w0 d l r hb hne
    exact emplace_unbound hb hne

theorem C9_witness :
    SessionInv Wabc 0 stAbc ∧
    ((∀ d l r, ∃ out, emplace Wabc d l r = some out) ∧
     (∀ i sign, ∃ out, literal Wabc i sign = some out) ∧
     (∀ r, Wf Wabc stAbc r → ∃ out, invertTop Wabc r = some out) ∧
     (∀ x y rest, Wf Wabc stAbc x → Wf Wabc stAbc y →
        (∀ z ∈ rest, Wf Wabc stAbc z) →
        (∃ out, conjoin Wabc x y rest = some out) ∧
        (∃ out, disjoin Wabc x y rest = some out)) ∧
     (∀ (w0 : World) (d : Nat) (l r : NodeRef), w0.bound = none → l ≠ r →
        emplace w0 d l r = none)) :=
  ⟨sessionInv_Wabc, C9_total_or_fatal sessionInv_Wabc⟩

/-- C10: the reduction short-circuit precedes the store access:
`emplace(d, c, c)` returns `c` with the world — including every store —
untouched, for any world whatsoever, in particular one with no store
bound. -/
theorem C10_reduction_before_store_access :
    ∀ (w : World) (d : Nat) (c : NodeRef),
      emplace w d c c = some (c, w) ∧
      emplace ⟨w.stores, none, w.next, w.heap⟩ d c c =
        some (c, ⟨w.stores, none, w.next, w.heap⟩) :=
  fun w d c => ⟨emplace_same w d c, emplace_same _ d c⟩

end Karnaugh
